import Mathlib

/-!
Shallow embedding of the blob lifecycle and garbage-collection manager
(TBlobManager and TBlobBatch) from src/ydb/library/yql/sql/v1/node.h,
lines 1371-2015, together with proofs of the specification claims.

Machine integers (ui32, ui64) are modelled as Nat: none of the verified
operations can overflow them on the inputs the claims quantify over, and
no arithmetic in the verified code wraps intentionally.  Ordered std::set
containers are modelled as strictly sorted lists, hash sets as
duplicate-free lists, and hash maps as association lists.  Fatal contract
violations (Y_VERIFY / Y_FAIL) are modelled by returning none.
-/

namespace BlobManager

/-- A generation and step pair, ordered lexicographically; mirrors TGenStep,
which is a std::tuple of two ui32 compared lexicographically. -/
abbrev TGenStep := Nat × Nat

/-- Strict lexicographic order on TGenStep, matching operator less-than on
std::tuple of (generation, step). -/
def gsLt (a b : TGenStep) : Prop :=
  a.1 < b.1 ∨ (a.1 = b.1 ∧ a.2 < b.2)

/-- Non-strict lexicographic order on TGenStep. -/
def gsLe (a b : TGenStep) : Prop :=
  a.1 < b.1 ∨ (a.1 = b.1 ∧ a.2 ≤ b.2)

instance (a b : TGenStep) : Decidable (gsLt a b) :=
  inferInstanceAs (Decidable (_ ∨ _))

instance (a b : TGenStep) : Decidable (gsLe a b) :=
  inferInstanceAs (Decidable (_ ∨ _))

/-- Mirrors TLogoBlobID: the identifier of a blob stored in the distributed
block store.  The C++ raw representation packs the fields so that
comparison is lexicographic in the order
(tabletID, generation, step, channel, cookie, blobSize). -/
structure TLogoBlobID where
  tabletID : Nat
  generation : Nat
  step : Nat
  channel : Nat
  cookie : Nat
  blobSize : Nat
deriving DecidableEq, Repr, Inhabited

/-- The GenStep of a store blob identifier. -/
def TLogoBlobID.genStep (b : TLogoBlobID) : TGenStep :=
  (b.generation, b.step)

/-- Strict order on TLogoBlobID, lexicographic on
(tabletID, generation, step, channel, cookie, blobSize); mirrors the C++
comparison of the packed 192-bit raw representation. -/
def ltLogo (a b : TLogoBlobID) : Prop :=
  a.tabletID < b.tabletID ∨ (a.tabletID = b.tabletID ∧
    (a.generation < b.generation ∨ (a.generation = b.generation ∧
      (a.step < b.step ∨ (a.step = b.step ∧
        (a.channel < b.channel ∨ (a.channel = b.channel ∧
          (a.cookie < b.cookie ∨ (a.cookie = b.cookie ∧
            a.blobSize < b.blobSize)))))))))

instance (a b : TLogoBlobID) : Decidable (ltLogo a b) :=
  inferInstanceAs (Decidable (_ ∨ _))

/-- Mirrors TUnifiedBlobId: either a DS (store) blob living in a storage
group, or a small blob stored inline. -/
inductive TUnifiedBlobId where
  | ds (dsGroup : Nat) (logo : TLogoBlobID)
  | small (tabletId gen step cookie size : Nat)
deriving DecidableEq, Repr, Inhabited

/-- Mirrors TUnifiedBlobId.IsSmallBlob. -/
def TUnifiedBlobId.isSmallBlob : TUnifiedBlobId → Bool
  | .ds _ _ => false
  | .small _ _ _ _ _ => true

/-- Mirrors TUnifiedBlobId.GetLogoBlobId; only ever used on DS blobs in the
verified code, on a small blob it returns a default value. -/
def TUnifiedBlobId.getLogoBlobId : TUnifiedBlobId → TLogoBlobID
  | .ds _ logo => logo
  | .small _ _ _ _ _ => default

/-- Mirrors TUnifiedBlobId.BlobSize. -/
def TUnifiedBlobId.blobSize : TUnifiedBlobId → Nat
  | .ds _ logo => logo.blobSize
  | .small _ _ _ _ size => size



section SetOps

/-- Insertion into a strictly sorted duplicate-free list; mirrors
std::set insert on a set of TLogoBlobID. -/
def insertLogo (x : TLogoBlobID) : List TLogoBlobID → List TLogoBlobID
  | [] => [x]
  | y :: ys =>
    if ltLogo x y then x :: y :: ys
    else if x = y then y :: ys
    else y :: insertLogo x ys

/-- Insertion into a duplicate-free list; mirrors insert on a hash set. -/
def hsInsert {α : Type} [DecidableEq α] (x : α) (l : List α) : List α :=
  if x ∈ l then l else x :: l

/-- Lookup in an association list; mirrors find on a hash map. -/
def lookupA {α β : Type} [DecidableEq α] (k : α) : List (α × β) → Option β
  | [] => none
  | p :: ps => if p.1 = k then some p.2 else lookupA k ps

/-- Overwrite-or-append on an association list; mirrors operator bracket
assignment on a hash map. -/
def setA {α β : Type} [DecidableEq α] (k : α) (v : β) : List (α × β) → List (α × β)
  | [] => [(k, v)]
  | p :: ps => if p.1 = k then (k, v) :: ps else p :: setA k v ps

/-- Erase by key on an association list; mirrors erase on a hash map. -/
def eraseA {α β : Type} [DecidableEq α] (k : α) : List (α × β) → List (α × β)
  | [] => []
  | p :: ps => if p.1 = k then ps else p :: eraseA k ps


end SetOps


section DataModel

/-- One entry of a channel's history of storage-group assignments. -/
structure TTabletChannelEntry where
  fromGeneration : Nat
  groupID : Nat
deriving DecidableEq, Repr, Inhabited

/-- Modelled from the spec: TTabletStorageInfo is an external collaborator
(only its uses appear in the source).  Per section 4.4 of the spec, a
channel's assignment to storage groups is an ordered history of
(generation, group) entries; the verified code consults it through
ChannelInfo(channel) and GroupFor(channel, gen).  The single supported
channel's history is stored directly. -/
structure TTabletStorageInfo where
  tabletID : Nat
  channelHistory : List TTabletChannelEntry
deriving DecidableEq, Repr, Inhabited

/-- Position of the first history entry whose FromGeneration exceeds g;
mirrors std::upper_bound with the comparator of the source (gen less-than
entry.FromGeneration) on the ordered history. -/
def upperBoundHist (g : Nat) : List TTabletChannelEntry → Nat
  | [] => 0
  | e :: rest => if g < e.fromGeneration then 0 else upperBoundHist g rest + 1

/-- Modelled from the spec: GroupFor resolves the storage group of a channel
at a generation by a boundary search over the channel history (the entry
immediately preceding the first entry past gen).  The channel argument is
kept for shape; only one channel is supported. -/
def groupFor (info : TTabletStorageInfo) (_channel gen : Nat) : Nat :=
  let u := upperBoundHist gen info.channelHistory
  if u = 0 then 0
  else ((info.channelHistory.take u).getLast?.map (fun e => e.groupID)).getD 0

/-- Modelled from the spec: the fixed channel used for blobs (a constant
declared outside src/; the code verifies StartBlobBatch is called with it). -/
def BLOB_CHANNEL : Nat := 2

/-- Modelled from the spec: the fixed maximum blob size enforced by
SendWriteBlobRequest (TLimits is declared outside src/). -/
def MAX_BLOB_SIZE : Nat := 8 * 1024 * 1024

/-- Modelled from the spec: TAllocatedGenStep is declared in blob_manager.h
(not under src/).  Per section 3 of the spec it is an in-flight write
batch's reserved GenStep with a holder count; it becomes Finished when all
holders release it.  Since the only holders in the verified code are the
allocation queue and the owning batch, Finished is modelled as a flag that
is set when the batch commits and releases its reference. -/
structure TAllocatedGenStep where
  genStep : TGenStep
  finished : Bool
deriving DecidableEq, Repr, Inhabited

/-- Per-group pending GC lists of an in-flight round; mirrors the TGCLists
value type of PerGroupGCListsInFlight. -/
structure TGCLists where
  keepList : List TLogoBlobID
  dontKeepList : List TLogoBlobID
  keepListSkipped : List TLogoBlobID
  dontKeepListSkipped : List TLogoBlobID
deriving DecidableEq, Repr, Inhabited

/-- The empty TGCLists, as created by operator bracket on the hash map. -/
def TGCLists.empty : TGCLists := ⟨[], [], [], []⟩

/-- Eviction states of EEvictState.  The dropped-local-copy state is named
EXTERNAL here; in the source it is spelled with the C storage-class keyword
as its last six letters, which this embedding avoids. -/
inductive EEvictState where
  | UNKNOWN
  | EVICTING
  | SELF_CACHED
  | EXTERNAL
deriving DecidableEq, Repr, Inhabited

/-- Opaque eviction metadata; mirrors TEvictMetadata, whose contents the
verified code only passes through. -/
structure TEvictMetadata where
  payload : Nat
deriving DecidableEq, Repr, Inhabited

/-- One persistence call into IBlobManagerDb; the db argument of the manager
operations is modelled as the list of calls issued. -/
inductive DbOp where
  | addBlobToKeep (id : TUnifiedBlobId)
  | addBlobToDelete (id : TUnifiedBlobId)
  | eraseBlobToKeep (id : TUnifiedBlobId)
  | eraseBlobToDelete (id : TUnifiedBlobId)
  | writeSmallBlob (id : TUnifiedBlobId) (size : Nat)
  | eraseSmallBlob (id : TUnifiedBlobId)
  | saveLastGcBarrier (gs : TGenStep)
  | updateEvictBlob (id : TUnifiedBlobId) (st : EEvictState)
  | dropEvictBlob (id : TUnifiedBlobId) (st : EEvictState)
  | eraseEvictBlob (id : TUnifiedBlobId) (st : EEvictState)
deriving DecidableEq, Repr

/-- The state of TBlobManager.  The two eviction tables are hash maps keyed
by TEvictedBlob whose hash and equality use only the blob identifier, so
they are modelled as association lists keyed by the identifier, carrying
the state and metadata. -/
structure TBlobManager where
  tabletInfo : TTabletStorageInfo
  currentGen : Nat
  currentStep : Nat
  blobCountToTriggerGC : Int
  gcIntervalSeconds : Int
  previousGCTime : Nat
  lastCollectedGenStep : TGenStep
  newCollectGenStep : TGenStep
  collectGenStepInFlight : TGenStep
  allocatedGenSteps : List TAllocatedGenStep
  blobsToKeep : List TLogoBlobID
  blobsToDelete : List TLogoBlobID
  blobsToDeleteDelayed : List TLogoBlobID
  smallBlobsToDelete : List TUnifiedBlobId
  smallBlobsToDeleteDelayed : List TUnifiedBlobId
  blobsUseCount : List (TUnifiedBlobId × Nat)
  perGroupGCListsInFlight : List (Nat × TGCLists)
  counterToGroupInFlight : List (Nat × Nat)
  perGenerationCounter : Nat
  evictedBlobs : List (TUnifiedBlobId × EEvictState × TEvictMetadata)
  droppedEvictedBlobs : List (TUnifiedBlobId × EEvictState × TEvictMetadata)
deriving DecidableEq, Repr, Inhabited

/-- The constructor state of TBlobManager(tabletInfo, gen): counters zero,
queues empty, barrier fields default-initialized to (0, 0), GC controls
taken as configuration.  PerGenerationCounter starts at 1 (declared in
blob_manager.h, outside src/; modelled from the spec's monotonic
per-generation request counter). -/
def TBlobManager.mkNew (info : TTabletStorageInfo) (gen : Nat)
    (gcThreshold gcInterval : Int) : TBlobManager where
  tabletInfo := info
  currentGen := gen
  currentStep := 0
  blobCountToTriggerGC := gcThreshold
  gcIntervalSeconds := gcInterval
  previousGCTime := 0
  lastCollectedGenStep := (0, 0)
  newCollectGenStep := (0, 0)
  collectGenStepInFlight := (0, 0)
  allocatedGenSteps := []
  blobsToKeep := []
  blobsToDelete := []
  blobsToDeleteDelayed := []
  smallBlobsToDelete := []
  smallBlobsToDeleteDelayed := []
  blobsUseCount := []
  perGroupGCListsInFlight := []
  counterToGroupInFlight := []
  perGenerationCounter := 1
  evictedBlobs := []
  droppedEvictedBlobs := []

/-- Mirrors TBlobBatch::TBatchInfo: the per-batch allocation record.  The
small-blob payloads are represented by their sizes, the only attribute the
verified code reads.  The batch's TabletInfo pointer refers to the
manager's info and is passed explicitly where needed. -/
structure TBatchInfo where
  gen : Nat
  step : Nat
  channel : Nat
  blobSizes : List Nat
  inFlight : List Bool
  inFlightCount : Int
  totalSizeBytes : Nat
  smallBlobs : List Nat
deriving DecidableEq, Repr, Inhabited

/-- Mirrors TBatchInfo::MakeBlobId(i): the logo-blob id carries the batch
size at index i as BlobSize and i as Cookie. -/
def makeBlobId (info : TTabletStorageInfo) (b : TBatchInfo) (i : Nat) : TUnifiedBlobId :=
  TUnifiedBlobId.ds (groupFor info b.channel b.gen)
    { tabletID := info.tabletID, generation := b.gen, step := b.step,
      channel := b.channel, cookie := i, blobSize := b.blobSizes.getD i 0 }

/-- Mirrors TBatchInfo::MakeSmallBlobId(i). -/
def makeSmallBlobId (info : TTabletStorageInfo) (b : TBatchInfo) (i : Nat) : TUnifiedBlobId :=
  TUnifiedBlobId.small info.tabletID b.gen b.step i (b.smallBlobs.getD i 0)

end DataModel

section Ops

/-- Mirrors TBlobBatch::SendWriteBlobRequest composed with
TBatchInfo::NextBlobId: verifies the size limit, appends the blob as
in-flight; the write request itself goes to the transport collaborator. -/
def sendWriteBlobRequest (b : TBatchInfo) (size : Nat) : Option TBatchInfo :=
  if MAX_BLOB_SIZE < size then none
  else some { b with
    blobSizes := b.blobSizes ++ [size]
    inFlight := b.inFlight ++ [true]
    inFlightCount := b.inFlightCount + 1
    totalSizeBytes := b.totalSizeBytes + size }

/-- Mirrors TBatchInfo::AddSmallBlob; small blobs are not included in
TotalSizeBytes. -/
def addSmallBlob (b : TBatchInfo) (size : Nat) : TBatchInfo :=
  { b with smallBlobs := b.smallBlobs ++ [size] }

/-- Mirrors TBlobBatch::OnBlobWriteResult: verifies the blob is still marked
in flight (double acknowledgment is fatal), clears the flag and decrements
the in-flight count, verifying it stays non-negative. -/
def onBlobWriteResult (b : TBatchInfo) (cookie : Nat) : Option TBatchInfo :=
  if hcook : cookie < b.inFlight.length then
    if b.inFlight.get ⟨cookie, hcook⟩ then
      let b2 : TBatchInfo := { b with
        inFlight := b.inFlight.set cookie false
        inFlightCount := b.inFlightCount - 1 }
      if b2.inFlightCount < 0 then none else some b2
    else none
  else none

/-- Mirrors TBlobBatch::AllBlobWritesCompleted. -/
def allBlobWritesCompleted (b : TBatchInfo) : Bool :=
  b.inFlightCount = 0

/-- Mirrors TBlobManager::StartBlobBatch: verifies the channel, increments
CurrentStep, creates an AllocatedGenStep referenced by the new batch and
appends it to the allocation queue. -/
def startBlobBatch (m : TBlobManager) (channel : Nat) :
    Option (TBlobManager × TBatchInfo) :=
  if channel ≠ BLOB_CHANNEL then none
  else
    let step := m.currentStep + 1
    some ({ m with
        currentStep := step
        allocatedGenSteps := m.allocatedGenSteps ++ [⟨(m.currentGen, step), false⟩] },
      ⟨m.currentGen, step, channel, [], [], 0, 0, []⟩)

/-- Sets the Finished flag of the allocation entry with the given GenStep;
models the batch dropping its GenStepRef (the last external holder). -/
def markFinished (gs : TGenStep) (l : List TAllocatedGenStep) : List TAllocatedGenStep :=
  l.map (fun a => if a.genStep = gs then { a with finished := true } else a)

/-- The store-blob identifiers of a batch, as produced by the MakeBlobId
loop of SaveBlobBatch. -/
def batchKeepIds (info : TTabletStorageInfo) (b : TBatchInfo) : List TLogoBlobID :=
  (List.range b.blobSizes.length).map (fun i => (makeBlobId info b i).getLogoBlobId)

/-- Mirrors TBlobManager::SaveBlobBatch: inserts every store blob of the
batch into BlobsToKeep with a persisted Keep record, writes every small
blob, and resets the batch's GenStepRef so its AllocatedGenStep finishes. -/
def saveBlobBatch (m : TBlobManager) (b : TBatchInfo) : TBlobManager × List DbOp :=
  let ids := batchKeepIds m.tabletInfo b
  let keepOps := (List.range b.blobSizes.length).map
    (fun i => DbOp.addBlobToKeep (makeBlobId m.tabletInfo b i))
  let smallOps := (List.range b.smallBlobs.length).map
    (fun i => DbOp.writeSmallBlob (makeSmallBlobId m.tabletInfo b i) (b.smallBlobs.getD i 0))
  ({ m with
      blobsToKeep := ids.foldl (fun s id => insertLogo id s) m.blobsToKeep
      allocatedGenSteps := markFinished (b.gen, b.step) m.allocatedGenSteps },
    keepOps ++ smallOps)

/-- Mirrors TBlobManager::DeleteSmallBlob: erases the payload from the
small-blob table (the cache eviction and counters are external). -/
def deleteSmallBlobOps (id : TUnifiedBlobId) : List DbOp :=
  [DbOp.eraseSmallBlob id]

/-- Mirrors TBlobManager::PerformDelayedDeletes: physically deletes every
small blob queued in SmallBlobsToDelete and clears its delete-intent
record, then empties the set. -/
def performDelayedDeletes (m : TBlobManager) : TBlobManager × List DbOp :=
  ({ m with smallBlobsToDelete := [] },
    m.smallBlobsToDelete.foldr
      (fun id acc => DbOp.eraseSmallBlob id :: DbOp.eraseBlobToDelete id :: acc) [])

/-- Mirrors TBlobManager::DeleteBlob.  Small blobs with no outstanding use
are deleted directly; small blobs in use get a persisted intent and go to
the delayed set.  Store blobs always get a persisted intent, then join
either BlobsToDelete or BlobsToDeleteDelayed depending on the use count. -/
def deleteBlob (m : TBlobManager) (id : TUnifiedBlobId) : TBlobManager × List DbOp :=
  let pd := performDelayedDeletes m
  let m1 := pd.1
  let ops1 := pd.2
  if id.isSmallBlob then
    if lookupA id m1.blobsUseCount = none then
      (m1, ops1 ++ deleteSmallBlobOps id)
    else
      ({ m1 with smallBlobsToDeleteDelayed := hsInsert id m1.smallBlobsToDeleteDelayed },
        ops1 ++ [DbOp.addBlobToDelete id])
  else
    if lookupA id m1.blobsUseCount = none then
      ({ m1 with blobsToDelete := insertLogo id.getLogoBlobId m1.blobsToDelete },
        ops1 ++ [DbOp.addBlobToDelete id])
    else
      ({ m1 with blobsToDeleteDelayed := hsInsert id.getLogoBlobId m1.blobsToDeleteDelayed },
        ops1 ++ [DbOp.addBlobToDelete id])

/-- Mirrors TBlobManager::SetBlobInUse.  A decrement of an unknown blob is a
fatal contract violation.  When the count drains to zero the entry is
erased and a delayed deletion, if any, is promoted.  Stored counts are
never zero, so the Nat decrement cannot truncate. -/
def setBlobInUse (m : TBlobManager) (id : TUnifiedBlobId) (inUse : Bool) :
    Option TBlobManager :=
  if inUse then
    match lookupA id m.blobsUseCount with
    | some c => some { m with blobsUseCount := setA id (c + 1) m.blobsUseCount }
    | none => some { m with blobsUseCount := setA id 1 m.blobsUseCount }
  else
    match lookupA id m.blobsUseCount with
    | none => none
    | some c =>
      if 0 < c - 1 then
        some { m with blobsUseCount := setA id (c - 1) m.blobsUseCount }
      else
        let m1 : TBlobManager := { m with blobsUseCount := eraseA id m.blobsUseCount }
        if id.isSmallBlob then
          if id ∈ m1.smallBlobsToDeleteDelayed then
            some { m1 with
              smallBlobsToDeleteDelayed := m1.smallBlobsToDeleteDelayed.erase id
              smallBlobsToDelete := hsInsert id m1.smallBlobsToDelete }
          else some m1
        else
          let logo := id.getLogoBlobId
          if logo ∈ m1.blobsToDeleteDelayed then
            some { m1 with
              blobsToDelete := insertLogo logo m1.blobsToDelete
              blobsToDeleteDelayed := m1.blobsToDeleteDelayed.erase logo }
          else some m1

/-- The pop loop of TryMoveGCBarrier: removes finished allocations from the
front of the queue, advancing NewCollectGenStep to each popped GenStep and
verifying each exceeds CollectGenStepInFlight; stops at the first
unfinished allocation. -/
def popFinishedFront (cif : TGenStep) :
    List TAllocatedGenStep → TGenStep → Option (TGenStep × List TAllocatedGenStep)
  | [], nc => some (nc, [])
  | a :: rest, nc =>
    if a.finished = false then some (nc, a :: rest)
    else if gsLt cif a.genStep then popFinishedFront cif rest a.genStep
    else none

/-- Mirrors TBlobManager::TryMoveGCBarrier: no-op while a round is in
flight, or when there is nothing to collect, or when throttled; otherwise
advances NewCollectGenStep over the finished front of the allocation queue
(to the current GenStep if the queue empties) and reports whether the
barrier can move. -/
def tryMoveGCBarrier (m : TBlobManager) (now : Nat) : Option (Bool × TBlobManager) :=
  if m.perGroupGCListsInFlight ≠ [] then some (false, m)
  else if m.blobsToKeep = [] ∧ m.blobsToDelete = [] ∧
      m.lastCollectedGenStep = (m.currentGen, m.currentStep) then some (false, m)
  else if (m.blobsToKeep.length : Int) < m.blobCountToTriggerGC ∧
      (m.blobsToDelete.length : Int) < m.blobCountToTriggerGC ∧
      (now : Int) < (m.previousGCTime : Int) + m.gcIntervalSeconds then some (false, m)
  else if ¬ gsLe m.lastCollectedGenStep m.newCollectGenStep then none
  else
    match popFinishedFront m.collectGenStepInFlight m.allocatedGenSteps m.newCollectGenStep with
    | none => none
    | some (nc, rest) =>
      let nc2 := if rest = [] then (m.currentGen, m.currentStep) else nc
      some (decide (gsLt m.lastCollectedGenStep nc2),
        { m with newCollectGenStep := nc2, allocatedGenSteps := rest })

/-- Creates an empty per-group entry if the group is absent; mirrors
operator bracket on PerGroupGCListsInFlight. -/
def addGroup (g : Nat) (pg : List (Nat × TGCLists)) : List (Nat × TGCLists) :=
  match lookupA g pg with
  | some _ => pg
  | none => pg ++ [(g, TGCLists.empty)]

/-- The group-range scan of PreparePerGroupGCRequests: collects the groups
of the channel-history entries spanning [fromGen, toGen], inclusive of the
entry immediately preceding the range start. -/
def initGroups (info : TTabletStorageInfo) (fromGen toGen : Nat) : List (Nat × TGCLists) :=
  let hist := info.channelHistory
  let u1 := upperBoundHist fromGen hist
  let fromIdx := if u1 = 0 then 0 else u1 - 1
  let toIdx := upperBoundHist toGen hist
  (((hist.drop fromIdx).take (toIdx - fromIdx)).map (fun e => e.groupID)).foldl
    (fun pg g => addGroup g pg) []

/-- The keep loop of PreparePerGroupGCRequests: peels every blob with
GenStep at or below the target off BlobsToKeep into its group's KeepList. -/
def peelKeep (info : TTabletStorageInfo) (target : TGenStep) :
    List TLogoBlobID → List (Nat × TGCLists) → List TLogoBlobID × List (Nat × TGCLists)
  | [], pg => ([], pg)
  | b :: rest, pg =>
    if gsLt target b.genStep then (b :: rest, pg)
    else
      let g := groupFor info b.channel b.generation
      let pg1 := addGroup g pg
      let ls := (lookupA g pg1).getD TGCLists.empty
      peelKeep info target rest (setA g { ls with keepList := hsInsert b ls.keepList } pg1)

/-- The delete loop of PreparePerGroupGCRequests: peels every blob with
GenStep at or below the target off BlobsToDelete.  A blob also present in
its group's KeepList is removed from it into KeepListSkipped; if it was
created in the current generation the DontKeep flag is skipped as well,
otherwise it joins the DontKeepList. -/
def peelDelete (info : TTabletStorageInfo) (curGen : Nat) (target : TGenStep) :
    List TLogoBlobID → List (Nat × TGCLists) → List TLogoBlobID × List (Nat × TGCLists)
  | [], pg => ([], pg)
  | b :: rest, pg =>
    if gsLt target b.genStep then (b :: rest, pg)
    else
      let g := groupFor info b.channel b.generation
      let pg1 := addGroup g pg
      let ls := (lookupA g pg1).getD TGCLists.empty
      let inKeep := b ∈ ls.keepList
      let ls1 := if inKeep then
          { ls with keepList := ls.keepList.erase b
                    keepListSkipped := ls.keepListSkipped ++ [b] }
        else ls
      let ls2 := if inKeep ∧ curGen = b.generation then
          { ls1 with dontKeepListSkipped := ls1.dontKeepListSkipped ++ [b] }
        else { ls1 with dontKeepList := hsInsert b ls1.dontKeepList }
      peelDelete info curGen target rest (setA g ls2 pg1)

/-- One per-group collect-garbage request (TEvCollectGarbage) of a round. -/
structure TGCRequest where
  tabletId : Nat
  recordGeneration : Nat
  perGenerationCounter : Nat
  channel : Nat
  collectGenStep : TGenStep
  keep : List TLogoBlobID
  dontKeep : List TLogoBlobID
deriving DecidableEq, Repr, Inhabited

/-- The request-emission loop of PreparePerGroupGCRequests: one request per
in-flight group, each consuming one per-generation counter value and
recording the counter-to-group correlation. -/
def buildRequests (tabletId gen channel : Nat) (target : TGenStep) :
    List (Nat × TGCLists) → Nat → List (Nat × TGCRequest) × List (Nat × Nat) × Nat
  | [], counter0 => ([], [], counter0)
  | (g, ls) :: rest, counter0 =>
    let req : TGCRequest :=
      ⟨tabletId, gen, counter0, channel, target, ls.keepList, ls.dontKeepList⟩
    let r := buildRequests tabletId gen channel target rest (counter0 + 1)
    ((g, req) :: r.1, (counter0, g) :: r.2.1, r.2.2)

/-- Mirrors TBlobManager::PreparePerGroupGCRequests: returns no requests
when TryMoveGCBarrier declines; otherwise freezes the target as
CollectGenStepInFlight, stamps PreviousGCTime, builds the per-group lists
from the channel history and the two queues, and emits one request per
group. -/
def preparePerGroupGCRequests (m : TBlobManager) (now : Nat) :
    Option (List (Nat × TGCRequest) × TBlobManager) :=
  match tryMoveGCBarrier m now with
  | none => none
  | some (false, m1) => some ([], m1)
  | some (true, m1) =>
    let target := m1.newCollectGenStep
    let m2 : TBlobManager :=
      { m1 with previousGCTime := now, collectGenStepInFlight := target }
    let pg0 := initGroups m2.tabletInfo m2.lastCollectedGenStep.1 target.1
    let pk := peelKeep m2.tabletInfo target m2.blobsToKeep pg0
    let pdl := peelDelete m2.tabletInfo m2.currentGen target m2.blobsToDelete pk.2
    let br := buildRequests m2.tabletInfo.tabletID m2.currentGen BLOB_CHANNEL target
      pdl.2 m2.perGenerationCounter
    some (br.1,
      { m2 with
          blobsToKeep := pk.1
          blobsToDelete := pdl.1
          perGroupGCListsInFlight := pdl.2
          counterToGroupInFlight :=
            (br.2.1).foldl (fun l p => setA p.1 p.2 l) m2.counterToGroupInFlight
          perGenerationCounter := br.2.2 })

/-- Mirrors TBlobManager::OnGCResult: verifies a round is in flight and the
counter is known, clears the acknowledged group's persisted entries,
removes the group from the in-flight maps (the counter map is erased with
the group id as key, exactly as the source does), advances and persists
the barrier when the round completes, then flushes delayed deletes. -/
def onGCResult (m : TBlobManager) (counter : Nat) : Option (TBlobManager × List DbOp) :=
  if m.counterToGroupInFlight = [] then none
  else if m.perGroupGCListsInFlight = [] then none
  else
    match lookupA counter m.counterToGroupInFlight with
    | none => none
    | some group =>
      match lookupA group m.perGroupGCListsInFlight with
      | none => none
      | some ls =>
        let ops :=
          (ls.keepList.map (fun b => DbOp.eraseBlobToKeep (TUnifiedBlobId.ds group b))) ++
          (ls.dontKeepList.map (fun b => DbOp.eraseBlobToDelete (TUnifiedBlobId.ds group b))) ++
          (ls.keepListSkipped.map (fun b => DbOp.eraseBlobToKeep (TUnifiedBlobId.ds group b))) ++
          (ls.dontKeepListSkipped.map (fun b => DbOp.eraseBlobToDelete (TUnifiedBlobId.ds group b)))
        let m1 : TBlobManager := { m with
          perGroupGCListsInFlight := eraseA group m.perGroupGCListsInFlight
          counterToGroupInFlight := eraseA group m.counterToGroupInFlight }
        let done := m1.perGroupGCListsInFlight = []
        let m2 : TBlobManager :=
          if done then { m1 with lastCollectedGenStep := m1.collectGenStepInFlight } else m1
        let ops2 := if done then [DbOp.saveLastGcBarrier m1.collectGenStepInFlight] else []
        let pd := performDelayedDeletes m2
        some (pd.1, ops ++ ops2 ++ pd.2)

/-- Modelled from the spec: ExtractEvicted is declared in blob_manager.h
(not under src/).  Per section 4.6, DropOneToOne removes a blob from the
active eviction table, and UpdateOneToOne re-derives state from the
dropped table after a drop; accordingly this looks the blob up in the
chosen table, removes the record, and returns its state and metadata. -/
def extractEvicted (m : TBlobManager) (id : TUnifiedBlobId) (fromDropped : Bool) :
    Option (EEvictState × TEvictMetadata) × TBlobManager :=
  if fromDropped then
    match lookupA id m.droppedEvictedBlobs with
    | some sm => (some sm, { m with droppedEvictedBlobs := eraseA id m.droppedEvictedBlobs })
    | none => (none, m)
  else
    match lookupA id m.evictedBlobs with
    | some sm => (some sm, { m with evictedBlobs := eraseA id m.evictedBlobs })
    | none => (none, m)

/-- Insert-if-absent on an eviction table; mirrors emplace on the hash maps
keyed by blob identifier. -/
def emplaceA (id : TUnifiedBlobId) (v : EEvictState × TEvictMetadata)
    (l : List (TUnifiedBlobId × EEvictState × TEvictMetadata)) :
    List (TUnifiedBlobId × EEvictState × TEvictMetadata) :=
  match lookupA id l with
  | some _ => l
  | none => (id, v) :: l

/-- Mirrors TBlobManager::ExportOneToOne: fails when the blob is already in
the active eviction table, otherwise records it as EVICTING. -/
def exportOneToOne (m : TBlobManager) (id : TUnifiedBlobId) (meta : TEvictMetadata) :
    Bool × TBlobManager × List DbOp :=
  match lookupA id m.evictedBlobs with
  | some _ => (false, m, [])
  | none =>
    (true,
      { m with evictedBlobs := emplaceA id (EEvictState.EVICTING, meta) m.evictedBlobs },
      [DbOp.updateEvictBlob id EEvictState.EVICTING])

/-- Mirrors TBlobManager::DropOneToOne: extracts the blob from the active
eviction table and re-records it in the dropped table.  The SELF_CACHED
remap in the source is disabled by the preprocessor (the branch sits in a
false conditional-compilation block), so the state is recorded unchanged. -/
def dropOneToOne (m : TBlobManager) (id : TUnifiedBlobId) :
    Bool × TBlobManager × List DbOp :=
  match extractEvicted m id false with
  | (none, _) => (false, m, [])
  | (some (st, meta), m1) =>
    (true,
      { m1 with droppedEvictedBlobs := emplaceA id (st, meta) m1.droppedEvictedBlobs },
      [DbOp.dropEvictBlob id st])

/-- The transition validation switch of UpdateOneToOne: SELF_CACHED may only
follow EVICTING, EXTERNAL may only follow EVICTING or SELF_CACHED; other
requested states are not checked. -/
def updateValidate (reqState oldSt : EEvictState) : Bool :=
  match reqState with
  | .SELF_CACHED => decide (oldSt = .EVICTING)
  | .EXTERNAL => decide (oldSt = .EVICTING ∨ oldSt = .SELF_CACHED)
  | _ => true

/-- Mirrors TBlobManager::UpdateOneToOne: extracts the blob's current record
from the active table, or from the dropped table when the blob was already
dropped; returns false without mutation when it is in neither.  Validates
the transition (a violation is fatal), remaps SELF_CACHED to EXTERNAL when
operating on the dropped table, and re-inserts the updated record.  The
result carries the return value and the dropped flag. -/
def updateOneToOne (m : TBlobManager) (id : TUnifiedBlobId) (reqState : EEvictState) :
    Option (Bool × Bool × TBlobManager × List DbOp) :=
  match extractEvicted m id false with
  | (some (oldSt, meta), m1) =>
    if updateValidate reqState oldSt then
      some (true, false,
        { m1 with evictedBlobs := emplaceA id (reqState, meta) m1.evictedBlobs },
        [DbOp.updateEvictBlob id reqState])
    else none
  | (none, _) =>
    if (lookupA id m.droppedEvictedBlobs).isSome then
      match extractEvicted m id true with
      | (some (oldSt, meta), m1) =>
        if updateValidate reqState oldSt then
          let st2 := if reqState = EEvictState.SELF_CACHED then EEvictState.EXTERNAL
            else reqState
          some (true, true,
            { m1 with droppedEvictedBlobs := emplaceA id (st2, meta) m1.droppedEvictedBlobs },
            [DbOp.updateEvictBlob id st2])
        else none
      | (none, _) => none
    else some (false, false, m, [])

/-- Mirrors TBlobManager::EraseOneToOne: erases the persisted eviction record
and removes the blob from the dropped table. -/
def eraseOneToOne (m : TBlobManager) (id : TUnifiedBlobId) (st : EEvictState) :
    Bool × TBlobManager × List DbOp :=
  ((lookupA id m.droppedEvictedBlobs).isSome,
    { m with droppedEvictedBlobs := eraseA id m.droppedEvictedBlobs },
    [DbOp.eraseEvictBlob id st])

end Ops

section Machine

/-- A manager together with its open (started, not yet committed) batches
and a specification ghost listing every store-blob identifier moved into
the Keep queue by a commit. -/
structure World where
  mgr : TBlobManager
  batches : List TBatchInfo
  committed : List TLogoBlobID
deriving DecidableEq, Repr, Inhabited

/-- A freshly constructed manager with no open batches. -/
def initWorld (info : TTabletStorageInfo) (gen : Nat) (gcThreshold gcInterval : Int) : World :=
  ⟨TBlobManager.mkNew info gen gcThreshold gcInterval, [], []⟩

/-- The open batch allocated at the given generation and step, if any. -/
def getBatch (g s : Nat) : List TBatchInfo → Option TBatchInfo
  | [] => none
  | b :: bs => if b.gen = g ∧ b.step = s then some b else getBatch g s bs

/-- Replaces the open batch at the given generation and step. -/
def setBatch (g s : Nat) (nb : TBatchInfo) : List TBatchInfo → List TBatchInfo
  | [] => []
  | b :: bs => if b.gen = g ∧ b.step = s then nb :: bs else b :: setBatch g s nb bs

/-- Removes the open batch at the given generation and step. -/
def removeBatch (g s : Nat) : List TBatchInfo → List TBatchInfo
  | [] => []
  | b :: bs => if b.gen = g ∧ b.step = s then bs else b :: removeBatch g s bs

/-- One externally invokable manager operation.  Batches are addressed by
their unique (generation, step); time-dependent operations take the clock
value they observe. -/
inductive Op where
  | startBatch (channel : Nat)
  | allocateBlob (gen step size : Nat)
  | allocSmall (gen step size : Nat)
  | ackWrite (gen step cookie : Nat)
  | commitBatch (gen step : Nat)
  | requestDelete (id : TUnifiedBlobId)
  | markInUse (id : TUnifiedBlobId) (inUse : Bool)
  | tryMove (now : Nat)
  | prepareGC (now : Nat)
  | gcResult (counter : Nat)
  | exportBlob (id : TUnifiedBlobId) (meta : TEvictMetadata)
  | dropBlob (id : TUnifiedBlobId)
  | updateBlob (id : TUnifiedBlobId) (st : EEvictState)
  | eraseBlob (id : TUnifiedBlobId) (st : EEvictState)
deriving DecidableEq, Repr

/-- The serialized small-step semantics of the manager: applies one
operation, returning none when the operation hits a fatal contract
violation (Y_VERIFY) or addresses a batch that does not exist. -/
def stepW (w : World) (op : Op) : Option World :=
  match op with
  | .startBatch channel =>
    match startBlobBatch w.mgr channel with
    | none => none
    | some (m1, b) => some { w with mgr := m1, batches := w.batches ++ [b] }
  | .allocateBlob g s size =>
    match getBatch g s w.batches with
    | none => none
    | some b =>
      match sendWriteBlobRequest b size with
      | none => none
      | some b1 => some { w with batches := setBatch g s b1 w.batches }
  | .allocSmall g s size =>
    match getBatch g s w.batches with
    | none => none
    | some b => some { w with batches := setBatch g s (addSmallBlob b size) w.batches }
  | .ackWrite g s cookie =>
    match getBatch g s w.batches with
    | none => none
    | some b =>
      match onBlobWriteResult b cookie with
      | none => none
      | some b1 => some { w with batches := setBatch g s b1 w.batches }
  | .commitBatch g s =>
    match getBatch g s w.batches with
    | none => none
    | some b =>
      some { w with
        mgr := (saveBlobBatch w.mgr b).1
        batches := removeBatch g s w.batches
        committed := w.committed ++ batchKeepIds w.mgr.tabletInfo b }
  | .requestDelete id => some { w with mgr := (deleteBlob w.mgr id).1 }
  | .markInUse id u => (setBlobInUse w.mgr id u).map (fun m1 => { w with mgr := m1 })
  | .tryMove now => (tryMoveGCBarrier w.mgr now).map (fun p => { w with mgr := p.2 })
  | .prepareGC now =>
    (preparePerGroupGCRequests w.mgr now).map (fun p => { w with mgr := p.2 })
  | .gcResult counter => (onGCResult w.mgr counter).map (fun p => { w with mgr := p.1 })
  | .exportBlob id meta => some { w with mgr := (exportOneToOne w.mgr id meta).2.1 }
  | .dropBlob id => some { w with mgr := (dropOneToOne w.mgr id).2.1 }
  | .updateBlob id st => (updateOneToOne w.mgr id st).map (fun r => { w with mgr := r.2.2.1 })
  | .eraseBlob id st => some { w with mgr := (eraseOneToOne w.mgr id st).2.1 }

/-- States reachable from a fresh manager by any sequence of operations. -/
inductive Reachable (info : TTabletStorageInfo) (gen : Nat) (thr itv : Int) : World → Prop
  | init : Reachable info gen thr itv (initWorld info gen thr itv)
  | step {w w2 : World} (op : Op) : Reachable info gen thr itv w → stepW w op = some w2 →
      Reachable info gen thr itv w2

/-- The write-batch operations named by the Keep-queue claim. -/
def isBatchOp : Op → Bool
  | .startBatch _ => true
  | .allocateBlob _ _ _ => true
  | .allocSmall _ _ _ => true
  | .ackWrite _ _ _ => true
  | .commitBatch _ _ => true
  | _ => false

/-- States reachable from a fresh manager using only write-batch
operations. -/
inductive ReachableB (info : TTabletStorageInfo) (gen : Nat) (thr itv : Int) : World → Prop
  | init : ReachableB info gen thr itv (initWorld info gen thr itv)
  | step {w w2 : World} (op : Op) : ReachableB info gen thr itv w → isBatchOp op = true →
      stepW w op = some w2 → ReachableB info gen thr itv w2

/-- Runs a list of operations from a state. -/
def stepN (w : World) : List Op → Option World
  | [] => some w
  | op :: ops =>
    match stepW w op with
    | none => none
    | some w2 => stepN w2 ops

end Machine

section GCDefs


/-- The GC-barrier invariant of the manager: the allocation queue is
strictly sorted and bounded by the current GenStep, NewCollectGenStep sits
strictly below every queued allocation and between the barrier and the
current GenStep, and the frozen in-flight target sits between the barrier
and NewCollectGenStep. -/
def GCInv (m : TBlobManager) : Prop :=
  m.allocatedGenSteps.Pairwise (fun a b => gsLt a.genStep b.genStep) ∧
  (∀ a ∈ m.allocatedGenSteps, gsLe a.genStep (m.currentGen, m.currentStep)) ∧
  (∀ a ∈ m.allocatedGenSteps, gsLt m.newCollectGenStep a.genStep) ∧
  gsLe m.lastCollectedGenStep m.newCollectGenStep ∧
  gsLe m.collectGenStepInFlight m.newCollectGenStep ∧
  gsLe m.newCollectGenStep (m.currentGen, m.currentStep) ∧
  gsLe m.lastCollectedGenStep m.collectGenStepInFlight

/-- The fields TryMoveGCBarrier may change are NewCollectGenStep and the
allocation queue; every other field survives.  Stated via a tuple of the
surviving fields. -/
def tmFrame (m : TBlobManager) :=
  (m.tabletInfo, m.currentGen, m.currentStep, m.blobCountToTriggerGC, m.gcIntervalSeconds,
   m.previousGCTime, m.lastCollectedGenStep, m.collectGenStepInFlight, m.blobsToKeep,
   m.blobsToDelete, m.blobsToDeleteDelayed, m.smallBlobsToDelete, m.smallBlobsToDeleteDelayed,
   m.blobsUseCount, m.perGroupGCListsInFlight, m.counterToGroupInFlight, m.perGenerationCounter,
   m.evictedBlobs, m.droppedEvictedBlobs)

/-- The GC-relevant fields, untouched by the deletion, use-count and
eviction operations. -/
def gcFields (m : TBlobManager) :=
  (m.allocatedGenSteps, m.newCollectGenStep, m.lastCollectedGenStep, m.collectGenStepInFlight,
   m.currentGen, m.currentStep)

instance (m : TBlobManager) : Decidable (GCInv m) := by
  unfold GCInv
  infer_instance

/-- The KeepList of a group in a per-group map (empty when absent, matching
operator bracket semantics). -/
def keepOf (g : Nat) (pg : List (Nat × TGCLists)) : List TLogoBlobID :=
  ((lookupA g pg).getD TGCLists.empty).keepList

/-- The DontKeepList of a group in a per-group map. -/
def dontOf (g : Nat) (pg : List (Nat × TGCLists)) : List TLogoBlobID :=
  ((lookupA g pg).getD TGCLists.empty).dontKeepList

/-- The group keys of a per-group map are duplicate-free (a hash-map
invariant). -/
def keysNodup (pg : List (Nat × TGCLists)) : Prop := (pg.map Prod.fst).Nodup

end GCDefs

section WitnessStates

/-- A concrete tablet: id 1, one channel-history entry assigning group 7
from generation 0. -/
def infoW : TTabletStorageInfo := ⟨1, [⟨0, 7⟩]⟩

/-- A fresh manager of generation 5 with a large GC count threshold and a
zero GC interval. -/
def w0W : World := initWorld infoW 5 1000000 0

/-- The state after starting one batch on the blob channel. -/
def w1W : World := (stepW w0W (Op.startBatch 2)).getD w0W

/-- w1W after allocating one 10-byte blob in the open batch. -/
def wB2 : World := (stepW w1W (Op.allocateBlob 5 1 10)).getD w0W

/-- wB2 after acknowledging the write of cookie 0. -/
def wB3 : World := (stepW wB2 (Op.ackWrite 5 1 0)).getD w0W

/-- wB3 after committing the batch. -/
def wB4 : World := (stepW wB3 (Op.commitBatch 5 1)).getD w0W

/-- A manager with one per-group GC list in flight. -/
def mC3 : TBlobManager :=
  { TBlobManager.mkNew infoW 5 1000000 0 with
    perGroupGCListsInFlight := [(7, TGCLists.empty)] }

/-- The state after starting two batches and committing the first: the
allocation queue holds a finished (5, 1) in front of an unfinished
(5, 2). -/
def wC2 : World :=
  (stepN w0W [Op.startBatch 2, Op.startBatch 2, Op.commitBatch 5 1]).getD w0W

/-- The manager produced by the round-proposing TryMoveGCBarrier on wC2. -/
def mC2A : TBlobManager := ((tryMoveGCBarrier wC2.mgr 1).getD (false, wC2.mgr)).2

/-- The requests and manager produced by PreparePerGroupGCRequests on wC2. -/
def reqsC2 : List (Nat × TGCRequest) :=
  ((preparePerGroupGCRequests wC2.mgr 1).getD ([], wC2.mgr)).1

/-- The post-round-proposal manager of wC2. -/
def mC2P : TBlobManager :=
  ((preparePerGroupGCRequests wC2.mgr 1).getD ([], wC2.mgr)).2

/-- A fresh generation-5 manager (all tables empty). -/
def mFresh : TBlobManager := TBlobManager.mkNew infoW 5 1000000 0

/-- A small blob of the tablet. -/
def sbW : TUnifiedBlobId := TUnifiedBlobId.small 1 5 1 0 10

/-- A store blob of the tablet in group 7. -/
def dsbW : TUnifiedBlobId := TUnifiedBlobId.ds 7 ⟨1, 5, 1, 2, 0, 10⟩

/-- A manager whose active eviction table holds dsbW as SELF_CACHED. -/
def mC8 : TBlobManager :=
  { mFresh with evictedBlobs := [(dsbW, EEvictState.SELF_CACHED, ⟨3⟩)] }

/-- The result of the export-drop-update round trip on the fresh manager. -/
def rC9 : Bool × Bool × TBlobManager × List DbOp :=
  (updateOneToOne (dropOneToOne (exportOneToOne mFresh dsbW ⟨3⟩).2.1 dsbW).2.1 dsbW
    EEvictState.SELF_CACHED).getD (false, false, mFresh, [])

/-- A store blob of the tablet: generation 5, step 1, the blob channel. -/
def bC4 : TLogoBlobID := ⟨1, 5, 1, 2, 0, 10⟩

/-- A generation-5 manager at step 2 holding bC4 in both the Keep queue and
the Delete queue. -/
def mC4 : TBlobManager :=
  { TBlobManager.mkNew infoW 5 1000000 0 with
    currentStep := 2
    blobsToKeep := [bC4]
    blobsToDelete := [bC4] }

/-- The requests and manager produced by PreparePerGroupGCRequests on mC4. -/
def prepC4 : List (Nat × TGCRequest) × TBlobManager :=
  (preparePerGroupGCRequests mC4 1).getD ([], mC4)

/-- The emitted request of the group of bC4. -/
def reqC4 : TGCRequest := (lookupA 7 prepC4.1).getD default

end WitnessStates

section DeferredDeleteDefs

/-- The blob sits in the active physical-deletion structure: the Delete
queue for store blobs, the small-blob delete set for small blobs. -/
def inActiveDelete (m : TBlobManager) (id : TUnifiedBlobId) : Prop :=
  match id with
  | .ds _ logo => logo ∈ m.blobsToDelete
  | .small _ _ _ _ _ => id ∈ m.smallBlobsToDelete

/-- The blob sits in the delayed-deletion structure. -/
def inDelayedDelete (m : TBlobManager) (id : TUnifiedBlobId) : Prop :=
  match id with
  | .ds _ logo => logo ∈ m.blobsToDeleteDelayed
  | .small _ _ _ _ _ => id ∈ m.smallBlobsToDeleteDelayed

/-- Number of occurrences of the blob in its active deletion structure. -/
def activeDeleteCount (m : TBlobManager) (id : TUnifiedBlobId) : Nat :=
  match id with
  | .ds _ logo => m.blobsToDelete.count logo
  | .small _ _ _ _ _ => m.smallBlobsToDelete.count id

instance (m : TBlobManager) (id : TUnifiedBlobId) : Decidable (inActiveDelete m id) := by
  unfold inActiveDelete
  cases id <;> infer_instance

instance (m : TBlobManager) (id : TUnifiedBlobId) : Decidable (inDelayedDelete m id) := by
  unfold inDelayedDelete
  cases id <;> infer_instance

/-- Well-formedness of the deletion structures: the ordered Delete queue is
strictly sorted, the hash sets are duplicate-free. -/
def DQInv (m : TBlobManager) : Prop :=
  m.blobsToDelete.Pairwise ltLogo ∧ m.blobsToDeleteDelayed.Nodup ∧
  m.smallBlobsToDelete.Nodup ∧ m.smallBlobsToDeleteDelayed.Nodup

instance (m : TBlobManager) : Decidable (DQInv m) := by
  unfold DQInv
  infer_instance

/-- Applies MarkInUse(id, true) k times. -/
def applyUseTrue (id : TUnifiedBlobId) : Nat → TBlobManager → TBlobManager
  | 0, m => m
  | k + 1, m =>
    match setBlobInUse m id true with
    | some m2 => applyUseTrue id k m2
    | none => m

/-- Applies MarkInUse(id, false) k times, failing on a contract violation. -/
def applyUnuse (id : TUnifiedBlobId) : Nat → TBlobManager → Option TBlobManager
  | 0, m => some m
  | k + 1, m =>
    match setBlobInUse m id false with
    | none => none
    | some m2 => applyUnuse id k m2

/-- The manager after two MarkInUse(dsbW, true) calls and a RequestDelete. -/
def mC6d : TBlobManager := (deleteBlob (applyUseTrue dsbW 2 mFresh) dsbW).1

/-- mC6d after one MarkInUse(dsbW, false). -/
def mC6a : TBlobManager := (applyUnuse dsbW 1 mC6d).getD mFresh

/-- mC6d after two MarkInUse(dsbW, false) calls. -/
def mC6f : TBlobManager := (applyUnuse dsbW 2 mC6d).getD mFresh

end DeferredDeleteDefs

section OrderLemmas

theorem gsLt_irrefl (a : TGenStep) : ¬ gsLt a a := by
  unfold gsLt; omega

theorem gsLe_refl (a : TGenStep) : gsLe a a := by
  unfold gsLe; omega

theorem gsLt_trans {a b c : TGenStep} (h1 : gsLt a b) (h2 : gsLt b c) : gsLt a c := by
  unfold gsLt at *; omega

theorem gsLe_trans {a b c : TGenStep} (h1 : gsLe a b) (h2 : gsLe b c) : gsLe a c := by
  unfold gsLe at *; omega

theorem gsLe_of_gsLt {a b : TGenStep} (h : gsLt a b) : gsLe a b := by
  unfold gsLt at h; unfold gsLe; omega

theorem gsLt_of_gsLe_of_gsLt {a b c : TGenStep} (h1 : gsLe a b) (h2 : gsLt b c) : gsLt a c := by
  unfold gsLe at h1; unfold gsLt at *; omega

theorem gsLt_of_gsLt_of_gsLe {a b c : TGenStep} (h1 : gsLt a b) (h2 : gsLe b c) : gsLt a c := by
  unfold gsLt at *; unfold gsLe at h2; omega

theorem gsLt_or_gsLe (a b : TGenStep) : gsLt a b ∨ gsLe b a := by
  unfold gsLt gsLe; omega

theorem gsLe_of_not_gsLt {a b : TGenStep} (h : ¬ gsLt a b) : gsLe b a := by
  unfold gsLt at h; unfold gsLe; omega

theorem not_gsLt_of_gsLe {a b : TGenStep} (h : gsLe a b) : ¬ gsLt b a := by
  unfold gsLe at h; unfold gsLt; omega

theorem gsLe_antisymm {a b : TGenStep} (h1 : gsLe a b) (h2 : gsLe b a) : a = b := by
  unfold gsLe at *
  rcases a with ⟨a1, a2⟩; rcases b with ⟨b1, b2⟩
  simp only [Prod.mk.injEq]
  omega

theorem ltLogo_irrefl (a : TLogoBlobID) : ¬ ltLogo a a := by
  unfold ltLogo; omega

theorem ltLogo_trans {a b c : TLogoBlobID} (h1 : ltLogo a b) (h2 : ltLogo b c) : ltLogo a c := by
  unfold ltLogo at *; omega

theorem ltLogo_total {a b : TLogoBlobID} (h : a ≠ b) : ltLogo a b ∨ ltLogo b a := by
  rcases a with ⟨a1, a2, a3, a4, a5, a6⟩; rcases b with ⟨b1, b2, b3, b4, b5, b6⟩
  simp only [ne_eq, TLogoBlobID.mk.injEq] at h
  unfold ltLogo
  dsimp only
  omega

theorem ne_of_ltLogo {a b : TLogoBlobID} (h : ltLogo a b) : a ≠ b := by
  intro he; subst he; exact ltLogo_irrefl a h

/-- For blobs of the same tablet, identifier order implies GenStep order. -/
theorem gsLe_genStep_of_ltLogo {a b : TLogoBlobID} (h : ltLogo a b)
    (ht : a.tabletID = b.tabletID) : gsLe a.genStep b.genStep := by
  unfold ltLogo at h; unfold gsLe TLogoBlobID.genStep; omega

end OrderLemmas

section SetOpLemmas

theorem mem_insertLogo {a x : TLogoBlobID} {l : List TLogoBlobID} :
    a ∈ insertLogo x l ↔ a = x ∨ a ∈ l := by
  induction l with
  | nil => simp [insertLogo]
  | cons y ys ih =>
    by_cases h1 : ltLogo x y
    · simp [insertLogo, h1]
    · by_cases h2 : x = y
      · subst h2; simp [insertLogo, h1]
      · simp [insertLogo, h1, h2, ih]
        tauto

theorem pairwise_insertLogo {x : TLogoBlobID} {l : List TLogoBlobID}
    (h : l.Pairwise ltLogo) : (insertLogo x l).Pairwise ltLogo := by
  induction l with
  | nil => simp [insertLogo]
  | cons y ys ih =>
    rcases List.pairwise_cons.mp h with ⟨hy, hys⟩
    by_cases h1 : ltLogo x y
    · simp only [insertLogo, if_pos h1]
      refine List.pairwise_cons.mpr ⟨?_, h⟩
      intro b hb
      rcases List.mem_cons.mp hb with hb | hb
      · subst hb; exact h1
      · exact ltLogo_trans h1 (hy b hb)
    · by_cases h2 : x = y
      · subst h2; simp only [insertLogo, if_neg h1, if_pos rfl]; exact h
      · simp only [insertLogo, if_neg h1, if_neg h2]
        refine List.pairwise_cons.mpr ⟨?_, ih hys⟩
        intro b hb
        rcases mem_insertLogo.mp hb with hb | hb
        · subst hb
          rcases ltLogo_total h2 with hc | hc
          · exact absurd hc h1
          · exact hc
        · exact hy b hb

theorem nodup_of_pairwise_ltLogo {l : List TLogoBlobID}
    (h : l.Pairwise ltLogo) : l.Nodup :=
  h.imp (fun hab => ne_of_ltLogo hab)

theorem mem_hsInsert {α : Type} [DecidableEq α] {a x : α} {l : List α} :
    a ∈ hsInsert x l ↔ a = x ∨ a ∈ l := by
  unfold hsInsert
  by_cases h : x ∈ l
  · simp [h]; intro he; subst he; exact h
  · simp [h]

theorem nodup_hsInsert {α : Type} [DecidableEq α] {x : α} {l : List α}
    (h : l.Nodup) : (hsInsert x l).Nodup := by
  unfold hsInsert
  by_cases hx : x ∈ l
  · simp [hx, h]
  · simp [hx, h]

theorem lookupA_setA_self {α β : Type} [DecidableEq α] (k : α) (v : β)
    (l : List (α × β)) : lookupA k (setA k v l) = some v := by
  induction l with
  | nil => simp [setA, lookupA]
  | cons p ps ih =>
    by_cases h : p.1 = k
    · simp [setA, h, lookupA]
    · simp [setA, h, lookupA, ih]

theorem lookupA_setA_ne {α β : Type} [DecidableEq α] {k g : α} (v : β)
    (l : List (α × β)) (h : g ≠ k) : lookupA g (setA k v l) = lookupA g l := by
  induction l with
  | nil => simp [setA, lookupA, Ne.symm h]
  | cons p ps ih =>
    by_cases hp : p.1 = k
    · simp [setA, hp, lookupA, Ne.symm h]
    · simp only [setA, if_neg hp, lookupA, ih]


theorem lookupA_cons_self {α β : Type} [DecidableEq α] (k : α) (v : β) (l : List (α × β)) :
    lookupA k ((k, v) :: l) = some v := by
  simp [lookupA]

theorem eraseA_cons_self {α β : Type} [DecidableEq α] (k : α) (v : β) (l : List (α × β)) :
    eraseA k ((k, v) :: l) = l := by
  simp [eraseA]

theorem lookupA_eq_none_iff {α β : Type} [DecidableEq α] {k : α} {l : List (α × β)} :
    lookupA k l = none ↔ k ∉ l.map Prod.fst := by
  induction l with
  | nil => simp [lookupA]
  | cons p ps ih =>
    by_cases hp : p.1 = k
    · simp [lookupA, hp]
    · simp [lookupA, hp, ih, Ne.symm hp]

theorem lookupA_eraseA_self {α β : Type} [DecidableEq α] {k : α} {l : List (α × β)}
    (h : (l.map Prod.fst).Nodup) : lookupA k (eraseA k l) = none := by
  induction l with
  | nil => rfl
  | cons p ps ih =>
    simp only [List.map_cons, List.nodup_cons] at h
    by_cases hp : p.1 = k
    · simp only [eraseA, if_pos hp]
      subst hp
      exact lookupA_eq_none_iff.mpr h.1
    · simp only [eraseA, if_neg hp, lookupA, if_neg hp]
      exact ih h.2

theorem emplaceA_of_none {id : TUnifiedBlobId} {v : EEvictState × TEvictMetadata}
    {l : List (TUnifiedBlobId × EEvictState × TEvictMetadata)}
    (h : lookupA id l = none) : emplaceA id v l = (id, v) :: l := by
  unfold emplaceA
  rw [h]

theorem mem_foldl_insertLogo {ids : List TLogoBlobID} :
    ∀ {s : List TLogoBlobID} {a : TLogoBlobID},
    a ∈ ids.foldl (fun s id => insertLogo id s) s ↔ a ∈ s ∨ a ∈ ids := by
  induction ids with
  | nil => intro s a; simp
  | cons x xs ih =>
    intro s a
    simp only [List.foldl_cons]
    rw [ih, mem_insertLogo]
    simp only [List.mem_cons]
    tauto

theorem pairwise_foldl_insertLogo {ids : List TLogoBlobID} :
    ∀ {s : List TLogoBlobID}, s.Pairwise ltLogo →
    (ids.foldl (fun s id => insertLogo id s) s).Pairwise ltLogo := by
  induction ids with
  | nil => intro s h; simpa using h
  | cons x xs ih =>
    intro s h
    simp only [List.foldl_cons]
    exact ih (pairwise_insertLogo h)

end SetOpLemmas


section GCInvariant

theorem gcInv_of_gcFields_eq {m1 m2 : TBlobManager} (h : gcFields m1 = gcFields m2)
    (hi : GCInv m2) : GCInv m1 := by
  have h1 : m1.allocatedGenSteps = m2.allocatedGenSteps := congrArg (fun t => t.1) h
  have h2 : m1.newCollectGenStep = m2.newCollectGenStep := congrArg (fun t => t.2.1) h
  have h3 : m1.lastCollectedGenStep = m2.lastCollectedGenStep := congrArg (fun t => t.2.2.1) h
  have h4 : m1.collectGenStepInFlight = m2.collectGenStepInFlight :=
    congrArg (fun t => t.2.2.2.1) h
  have h5 : m1.currentGen = m2.currentGen := congrArg (fun t => t.2.2.2.2.1) h
  have h6 : m1.currentStep = m2.currentStep := congrArg (fun t => t.2.2.2.2.2) h
  unfold GCInv at *
  rw [h1, h2, h3, h4, h5, h6]
  exact hi

theorem deleteBlob_gcFrame (m : TBlobManager) (id : TUnifiedBlobId) :
    gcFields (deleteBlob m id).1 = gcFields m := by
  unfold deleteBlob performDelayedDeletes
  dsimp only
  split <;> split <;> rfl

theorem setBlobInUse_gcFrame {m m1 : TBlobManager} {id : TUnifiedBlobId} {u : Bool}
    (h : setBlobInUse m id u = some m1) : gcFields m1 = gcFields m := by
  unfold setBlobInUse at h
  dsimp only at h
  repeat' split at h
  all_goals cases h
  all_goals rfl

theorem exportOneToOne_gcFrame (m : TBlobManager) (id : TUnifiedBlobId)
    (meta : TEvictMetadata) : gcFields (exportOneToOne m id meta).2.1 = gcFields m := by
  unfold exportOneToOne
  split <;> rfl

theorem extractEvicted_gcFrame (m : TBlobManager) (id : TUnifiedBlobId) (fd : Bool) :
    gcFields (extractEvicted m id fd).2 = gcFields m := by
  unfold extractEvicted
  repeat' split
  all_goals rfl

theorem dropOneToOne_gcFrame (m : TBlobManager) (id : TUnifiedBlobId) :
    gcFields (dropOneToOne m id).2.1 = gcFields m := by
  unfold dropOneToOne
  rcases hx : extractEvicted m id false with ⟨ox, mx⟩
  have hmx : gcFields mx = gcFields m := by
    have hf := extractEvicted_gcFrame m id false
    rw [hx] at hf; exact hf
  cases ox with
  | none => rfl
  | some sm =>
    rcases sm with ⟨st, meta⟩
    exact hmx

theorem updateOneToOne_gcFrame {m : TBlobManager} {id : TUnifiedBlobId} {st : EEvictState}
    {r : Bool × Bool × TBlobManager × List DbOp} (h : updateOneToOne m id st = some r) :
    gcFields r.2.2.1 = gcFields m := by
  unfold updateOneToOne at h
  rcases hx : extractEvicted m id false with ⟨ox, mx⟩
  have hmx : gcFields mx = gcFields m := by
    have hf := extractEvicted_gcFrame m id false
    rw [hx] at hf; exact hf
  rw [hx] at h
  cases ox with
  | some sm =>
    rcases sm with ⟨oldSt, meta⟩
    dsimp only at h
    split at h
    · cases h; exact hmx
    · cases h
  | none =>
    dsimp only at h
    split at h
    · rcases hy : extractEvicted m id true with ⟨oy, my⟩
      have hmy : gcFields my = gcFields m := by
        have hf := extractEvicted_gcFrame m id true
        rw [hy] at hf; exact hf
      rw [hy] at h
      cases oy with
      | some sm2 =>
        rcases sm2 with ⟨o2, me2⟩
        dsimp only at h
        split at h
        · cases h; exact hmy
        · cases h
      | none => cases h
    · cases h; rfl

theorem eraseOneToOne_gcFrame (m : TBlobManager) (id : TUnifiedBlobId) (st : EEvictState) :
    gcFields (eraseOneToOne m id st).2.1 = gcFields m := rfl

/-- The pop loop never crashes when every queued GenStep exceeds both
NewCollectGenStep and CollectGenStepInFlight, and it returns a suffix of
the queue together with a candidate that dominates the popped entries
(all finished) and sits strictly below every remaining entry. -/
theorem popFinishedFront_spec {cif : TGenStep} :
    ∀ {l : List TAllocatedGenStep} {nc : TGenStep},
    l.Pairwise (fun a b => gsLt a.genStep b.genStep) →
    (∀ a ∈ l, gsLt nc a.genStep) → (∀ a ∈ l, gsLt cif a.genStep) →
    ∃ nc2 rest, popFinishedFront cif l nc = some (nc2, rest) ∧
      gsLe nc nc2 ∧ rest.Sublist l ∧
      (∀ a ∈ rest, gsLt nc2 a.genStep) ∧
      (∀ a ∈ l, a ∉ rest → a.finished = true ∧ gsLe a.genStep nc2) ∧
      (nc2 = nc ∨ ∃ a ∈ l, nc2 = a.genStep) := by
  intro l
  induction l with
  | nil =>
    intro nc _ _ _
    exact ⟨nc, [], rfl, gsLe_refl nc, List.Sublist.refl _, by simp, by simp, Or.inl rfl⟩
  | cons a l ih =>
    intro nc hp hnc hcif
    rcases List.pairwise_cons.mp hp with ⟨ha, hl⟩
    by_cases hfin : a.finished = false
    · refine ⟨nc, a :: l, ?_, gsLe_refl nc, List.Sublist.refl _, hnc,
        fun x hx hxr => absurd hx hxr, Or.inl rfl⟩
      simp [popFinishedFront, hfin]
    · have hcifa : gsLt cif a.genStep := hcif a (List.mem_cons_self a l)
      have hstep : popFinishedFront cif (a :: l) nc = popFinishedFront cif l a.genStep := by
        simp [popFinishedFront, hfin, hcifa]
      obtain ⟨nc2, rest, hpop, hle, hsub, hlt, hpopped, hfrom⟩ :=
        ih hl ha (fun x hx => hcif x (List.mem_cons_of_mem a hx))
      refine ⟨nc2, rest, hstep ▸ hpop, ?_, hsub.cons a, hlt, ?_, ?_⟩
      · exact gsLe_trans (gsLe_of_gsLt (hnc a (List.mem_cons_self a l))) hle
      · intro x hx hxr
        rcases List.mem_cons.mp hx with hx | hx
        · subst hx
          refine ⟨by simpa using hfin, ?_⟩
          rcases hfrom with hf | ⟨c, hc, hf⟩
          · exact hf ▸ gsLe_refl _
          · exact hf ▸ gsLe_of_gsLt (ha c hc)
        · exact hpopped x hx hxr
      · rcases hfrom with hf | ⟨c, hc, hf⟩
        · exact Or.inr ⟨a, List.mem_cons_self a l, hf⟩
        · exact Or.inr ⟨c, List.mem_cons_of_mem a hc, hf⟩

/-- TryMoveGCBarrier leaves every field other than NewCollectGenStep and
the allocation queue untouched. -/
theorem tryMoveGCBarrier_frame {m : TBlobManager} {now : Nat} {r : Bool} {m1 : TBlobManager}
    (h : tryMoveGCBarrier m now = some (r, m1)) : tmFrame m1 = tmFrame m := by
  unfold tryMoveGCBarrier at h
  dsimp only at h
  repeat' split at h
  all_goals cases h
  all_goals rfl

/-- TryMoveGCBarrier never hits its internal assertions on an invariant
state, returns a queue suffix, and preserves the GC invariant. -/
theorem tryMoveGCBarrier_inv {m : TBlobManager} {now : Nat} {r : Bool} {m1 : TBlobManager}
    (h : tryMoveGCBarrier m now = some (r, m1)) (hi : GCInv m) : GCInv m1 := by
  obtain ⟨hs, hee, hnc, hln, hcn, hnu, hlc⟩ := hi
  unfold tryMoveGCBarrier at h
  by_cases h1 : m.perGroupGCListsInFlight ≠ []
  · rw [if_pos h1] at h
    cases h
    exact ⟨hs, hee, hnc, hln, hcn, hnu, hlc⟩
  rw [if_neg h1] at h
  by_cases h2 : m.blobsToKeep = [] ∧ m.blobsToDelete = [] ∧
      m.lastCollectedGenStep = (m.currentGen, m.currentStep)
  · rw [if_pos h2] at h
    cases h
    exact ⟨hs, hee, hnc, hln, hcn, hnu, hlc⟩
  rw [if_neg h2] at h
  by_cases h3 : (m.blobsToKeep.length : Int) < m.blobCountToTriggerGC ∧
      (m.blobsToDelete.length : Int) < m.blobCountToTriggerGC ∧
      (now : Int) < (m.previousGCTime : Int) + m.gcIntervalSeconds
  · rw [if_pos h3] at h
    cases h
    exact ⟨hs, hee, hnc, hln, hcn, hnu, hlc⟩
  rw [if_neg h3] at h
  rw [if_neg (by simpa using hln)] at h
  obtain ⟨nc2, rest, hpop, hle, hsub, hlt, hpopped, hfrom⟩ :=
    popFinishedFront_spec hs hnc
      (fun a ha => gsLt_of_gsLe_of_gsLt hcn (hnc a ha))
  rw [hpop] at h
  cases h
  constructor
  · exact hs.sublist hsub
  refine ⟨?_, ?_, ?_, ?_, ?_, ?_⟩
  · intro a ha
    exact hee a (hsub.subset ha)
  · intro a ha
    by_cases hre : rest = []
    · simp [hre] at ha
    · simpa [hre] using hlt a ha
  · by_cases hre : rest = []
    · simpa [hre] using gsLe_trans hln hnu
    · simp only [if_neg hre]
      exact gsLe_trans hln hle
  · by_cases hre : rest = []
    · simpa [hre] using gsLe_trans hcn hnu
    · simp only [if_neg hre]
      exact gsLe_trans hcn hle
  · by_cases hre : rest = []
    · simp [hre]
      exact gsLe_refl _
    · simp only [if_neg hre]
      rcases hfrom with hf | ⟨c, hc, hf⟩
      · exact hf ▸ hnu
      · exact hf ▸ hee c hc
  · exact hlc

theorem markFinished_genStep (gs : TGenStep) (a : TAllocatedGenStep) :
    ((if a.genStep = gs then { a with finished := true } else a) : TAllocatedGenStep).genStep
      = a.genStep := by
  split <;> rfl

theorem mem_markFinished {gs : TGenStep} {l : List TAllocatedGenStep} {a : TAllocatedGenStep}
    (ha : a ∈ markFinished gs l) : ∃ b ∈ l, a.genStep = b.genStep := by
  unfold markFinished at ha
  rcases List.mem_map.mp ha with ⟨b, hb, hba⟩
  exact ⟨b, hb, by rw [← hba, markFinished_genStep]⟩

theorem markFinished_pairwise {gs : TGenStep} {l : List TAllocatedGenStep}
    (h : l.Pairwise (fun a b => gsLt a.genStep b.genStep)) :
    (markFinished gs l).Pairwise (fun a b => gsLt a.genStep b.genStep) := by
  unfold markFinished
  rw [List.pairwise_map]
  refine h.imp ?_
  intro a b hab
  rw [markFinished_genStep, markFinished_genStep]
  exact hab

theorem startBlobBatch_inv {m : TBlobManager} {ch : Nat} {m1 : TBlobManager} {b : TBatchInfo}
    (h : startBlobBatch m ch = some (m1, b)) (hi : GCInv m) :
    GCInv m1 ∧ m1.lastCollectedGenStep = m.lastCollectedGenStep := by
  obtain ⟨hs, hee, hnc, hln, hcn, hnu, hlc⟩ := hi
  unfold startBlobBatch at h
  split at h
  · cases h
  · cases h
    have hlt : gsLt (m.currentGen, m.currentStep) (m.currentGen, m.currentStep + 1) := by
      unfold gsLt; omega
    refine ⟨⟨?_, ?_, ?_, hln, hcn, gsLe_trans hnu (gsLe_of_gsLt hlt), hlc⟩, rfl⟩
    · rw [List.pairwise_append]
      refine ⟨hs, by simp, ?_⟩
      intro a ha x hx
      rcases List.mem_singleton.mp hx with rfl
      exact gsLt_of_gsLe_of_gsLt (hee a ha) hlt
    · intro a ha
      rcases List.mem_append.mp ha with ha | ha
      · exact gsLe_trans (hee a ha) (gsLe_of_gsLt hlt)
      · rcases List.mem_singleton.mp ha with rfl
        exact gsLe_refl _
    · intro a ha
      rcases List.mem_append.mp ha with ha | ha
      · exact hnc a ha
      · rcases List.mem_singleton.mp ha with rfl
        exact gsLt_of_gsLe_of_gsLt hnu hlt

theorem saveBlobBatch_inv {m : TBlobManager} (b : TBatchInfo) (hi : GCInv m) :
    GCInv (saveBlobBatch m b).1 ∧
      (saveBlobBatch m b).1.lastCollectedGenStep = m.lastCollectedGenStep := by
  obtain ⟨hs, hee, hnc, hln, hcn, hnu, hlc⟩ := hi
  refine ⟨⟨markFinished_pairwise hs, ?_, ?_, hln, hcn, hnu, hlc⟩, rfl⟩
  · intro a ha
    obtain ⟨c, hc, hgs⟩ := mem_markFinished ha
    exact hgs ▸ hee c hc
  · intro a ha
    obtain ⟨c, hc, hgs⟩ := mem_markFinished ha
    exact hgs ▸ hnc c hc

/-- PreparePerGroupGCRequests either returns the state TryMoveGCBarrier
produced (round declined), or freezes its NewCollectGenStep as the round
target without touching the barrier, the allocation queue or the current
GenStep. -/
theorem prepare_shape {m : TBlobManager} {now : Nat} {reqs : List (Nat × TGCRequest)}
    {m1 : TBlobManager} (h : preparePerGroupGCRequests m now = some (reqs, m1)) :
    ∃ r mA, tryMoveGCBarrier m now = some (r, mA) ∧
      ((r = false ∧ reqs = [] ∧ m1 = mA) ∨
       (r = true ∧ m1.allocatedGenSteps = mA.allocatedGenSteps ∧
        m1.newCollectGenStep = mA.newCollectGenStep ∧
        m1.collectGenStepInFlight = mA.newCollectGenStep ∧
        m1.lastCollectedGenStep = mA.lastCollectedGenStep ∧
        m1.currentGen = mA.currentGen ∧ m1.currentStep = mA.currentStep ∧
        m1.blobsToKeep = (peelKeep mA.tabletInfo mA.newCollectGenStep mA.blobsToKeep
          (initGroups mA.tabletInfo mA.lastCollectedGenStep.1 mA.newCollectGenStep.1)).1)) := by
  unfold preparePerGroupGCRequests at h
  rcases htm : tryMoveGCBarrier m now with _ | ⟨r, mA⟩
  · rw [htm] at h; cases h
  · rw [htm] at h
    refine ⟨r, mA, rfl, ?_⟩
    cases r with
    | false =>
      dsimp only at h
      cases h
      exact Or.inl ⟨rfl, rfl, rfl⟩
    | true =>
      dsimp only at h
      cases h
      exact Or.inr ⟨rfl, rfl, rfl, rfl, rfl, rfl, rfl, rfl⟩

theorem prepare_inv {m : TBlobManager} {now : Nat} {reqs : List (Nat × TGCRequest)}
    {m1 : TBlobManager} (h : preparePerGroupGCRequests m now = some (reqs, m1))
    (hi : GCInv m) : GCInv m1 ∧ m1.lastCollectedGenStep = m.lastCollectedGenStep := by
  obtain ⟨r, mA, htm, hcase⟩ := prepare_shape h
  have hiA := tryMoveGCBarrier_inv htm hi
  have hfr := tryMoveGCBarrier_frame htm
  have hlastA : mA.lastCollectedGenStep = m.lastCollectedGenStep :=
    congrArg (fun t => t.2.2.2.2.2.2.1) hfr
  rcases hcase with ⟨_, _, rfl⟩ | ⟨_, hal, hncq, hcif, hlq, hgq, hsq, _⟩
  · exact ⟨hiA, hlastA⟩
  · obtain ⟨hsA, heeA, hncA, hlnA, hcnA, hnuA, hlcA⟩ := hiA
    refine ⟨⟨?_, ?_, ?_, ?_, ?_, ?_, ?_⟩, hlq ▸ hlastA⟩
    · rw [hal]; exact hsA
    · intro a ha
      rw [hgq, hsq]
      exact heeA a (hal ▸ ha)
    · intro a ha
      rw [hncq]
      exact hncA a (hal ▸ ha)
    · rw [hlq, hncq]
      exact hlnA
    · rw [hcif, hncq]
      exact gsLe_refl _
    · rw [hncq, hgq, hsq]
      exact hnuA
    · rw [hlq, hcif]
      exact hlnA

theorem onGCResult_shape {m : TBlobManager} {counter : Nat} {m1 : TBlobManager}
    {ops : List DbOp} (h : onGCResult m counter = some (m1, ops)) :
    m1.allocatedGenSteps = m.allocatedGenSteps ∧
    m1.newCollectGenStep = m.newCollectGenStep ∧
    m1.collectGenStepInFlight = m.collectGenStepInFlight ∧
    m1.currentGen = m.currentGen ∧ m1.currentStep = m.currentStep ∧
    (m1.lastCollectedGenStep = m.lastCollectedGenStep ∨
     m1.lastCollectedGenStep = m.collectGenStepInFlight) := by
  unfold onGCResult performDelayedDeletes at h
  dsimp only at h
  repeat' split at h
  all_goals cases h
  all_goals first
    | exact ⟨rfl, rfl, rfl, rfl, rfl, Or.inl rfl⟩
    | exact ⟨rfl, rfl, rfl, rfl, rfl, Or.inr rfl⟩

theorem onGCResult_inv {m : TBlobManager} {counter : Nat} {m1 : TBlobManager}
    {ops : List DbOp} (h : onGCResult m counter = some (m1, ops)) (hi : GCInv m) :
    GCInv m1 ∧ gsLe m.lastCollectedGenStep m1.lastCollectedGenStep := by
  obtain ⟨hal, hncq, hcif, hgq, hsq, hlq⟩ := onGCResult_shape h
  obtain ⟨hs, hee, hnc, hln, hcn, hnu, hlc⟩ := hi
  rcases hlq with hlq | hlq
  · refine ⟨⟨?_, ?_, ?_, ?_, ?_, ?_, ?_⟩, hlq ▸ gsLe_refl _⟩
    · rw [hal]; exact hs
    · intro a ha; rw [hgq, hsq]; exact hee a (hal ▸ ha)
    · intro a ha; rw [hncq]; exact hnc a (hal ▸ ha)
    · rw [hlq, hncq]; exact hln
    · rw [hcif, hncq]; exact hcn
    · rw [hncq, hgq, hsq]; exact hnu
    · rw [hlq, hcif]; exact hlc
  · refine ⟨⟨?_, ?_, ?_, ?_, ?_, ?_, ?_⟩, hlq ▸ hlc⟩
    · rw [hal]; exact hs
    · intro a ha; rw [hgq, hsq]; exact hee a (hal ▸ ha)
    · intro a ha; rw [hncq]; exact hnc a (hal ▸ ha)
    · rw [hlq, hncq]; exact hcn
    · rw [hcif, hncq]; exact hcn
    · rw [hncq, hgq, hsq]; exact hnu
    · rw [hlq, hcif]; exact gsLe_refl _

/-- Every successful operation preserves the GC invariant and never moves
the barrier backwards. -/
theorem stepW_inv {w w2 : World} {op : Op} (h : stepW w op = some w2) (hi : GCInv w.mgr) :
    GCInv w2.mgr ∧ gsLe w.mgr.lastCollectedGenStep w2.mgr.lastCollectedGenStep := by
  cases op with
  | startBatch ch =>
    simp only [stepW] at h
    rcases hsb : startBlobBatch w.mgr ch with _ | ⟨mA, b⟩
    · rw [hsb] at h; cases h
    · rw [hsb] at h
      cases h
      obtain ⟨hiA, hlast⟩ := startBlobBatch_inv hsb hi
      exact ⟨hiA, hlast ▸ gsLe_refl _⟩
  | allocateBlob g s size =>
    simp only [stepW] at h
    rcases hgb : getBatch g s w.batches with _ | b
    · rw [hgb] at h; cases h
    · rw [hgb] at h
      dsimp only at h
      rcases hsw : sendWriteBlobRequest b size with _ | b1
      · rw [hsw] at h; cases h
      · rw [hsw] at h; cases h; exact ⟨hi, gsLe_refl _⟩
  | allocSmall g s size =>
    simp only [stepW] at h
    rcases hgb : getBatch g s w.batches with _ | b
    · rw [hgb] at h; cases h
    · rw [hgb] at h; cases h; exact ⟨hi, gsLe_refl _⟩
  | ackWrite g s cookie =>
    simp only [stepW] at h
    rcases hgb : getBatch g s w.batches with _ | b
    · rw [hgb] at h; cases h
    · rw [hgb] at h
      dsimp only at h
      rcases hbw : onBlobWriteResult b cookie with _ | b1
      · rw [hbw] at h; cases h
      · rw [hbw] at h; cases h; exact ⟨hi, gsLe_refl _⟩
  | commitBatch g s =>
    simp only [stepW] at h
    rcases hgb : getBatch g s w.batches with _ | b
    · rw [hgb] at h; cases h
    · rw [hgb] at h
      cases h
      obtain ⟨hiA, hlast⟩ := saveBlobBatch_inv b hi
      exact ⟨hiA, hlast ▸ gsLe_refl _⟩
  | requestDelete id =>
    simp only [stepW] at h
    cases h
    have hfr := deleteBlob_gcFrame w.mgr id
    refine ⟨gcInv_of_gcFields_eq hfr hi, ?_⟩
    have : (deleteBlob w.mgr id).1.lastCollectedGenStep = w.mgr.lastCollectedGenStep :=
      congrArg (fun t => t.2.2.1) hfr
    exact this ▸ gsLe_refl _
  | markInUse id u =>
    simp only [stepW] at h
    rcases hsb : setBlobInUse w.mgr id u with _ | mA
    · rw [hsb] at h; cases h
    · rw [hsb] at h
      cases h
      have hfr := setBlobInUse_gcFrame hsb
      refine ⟨gcInv_of_gcFields_eq hfr hi, ?_⟩
      have : mA.lastCollectedGenStep = w.mgr.lastCollectedGenStep :=
        congrArg (fun t => t.2.2.1) hfr
      exact this ▸ gsLe_refl _
  | tryMove now =>
    simp only [stepW] at h
    rcases htm : tryMoveGCBarrier w.mgr now with _ | ⟨r, mA⟩
    · rw [htm] at h; cases h
    · rw [htm] at h
      cases h
      have hlast : mA.lastCollectedGenStep = w.mgr.lastCollectedGenStep :=
        congrArg (fun t => t.2.2.2.2.2.2.1) (tryMoveGCBarrier_frame htm)
      exact ⟨tryMoveGCBarrier_inv htm hi, hlast ▸ gsLe_refl _⟩
  | prepareGC now =>
    simp only [stepW] at h
    rcases hp : preparePerGroupGCRequests w.mgr now with _ | ⟨reqs, mA⟩
    · rw [hp] at h; cases h
    · rw [hp] at h
      cases h
      obtain ⟨hiA, hlast⟩ := prepare_inv hp hi
      exact ⟨hiA, hlast ▸ gsLe_refl _⟩
  | gcResult counter =>
    simp only [stepW] at h
    rcases hg : onGCResult w.mgr counter with _ | ⟨mA, ops⟩
    · rw [hg] at h; cases h
    · rw [hg] at h
      cases h
      exact onGCResult_inv hg hi
  | exportBlob id meta =>
    simp only [stepW] at h
    cases h
    have hfr := exportOneToOne_gcFrame w.mgr id meta
    refine ⟨gcInv_of_gcFields_eq hfr hi, ?_⟩
    have : (exportOneToOne w.mgr id meta).2.1.lastCollectedGenStep =
        w.mgr.lastCollectedGenStep := congrArg (fun t => t.2.2.1) hfr
    exact this ▸ gsLe_refl _
  | dropBlob id =>
    simp only [stepW] at h
    cases h
    have hfr := dropOneToOne_gcFrame w.mgr id
    refine ⟨gcInv_of_gcFields_eq hfr hi, ?_⟩
    have : (dropOneToOne w.mgr id).2.1.lastCollectedGenStep = w.mgr.lastCollectedGenStep :=
      congrArg (fun t => t.2.2.1) hfr
    exact this ▸ gsLe_refl _
  | updateBlob id st =>
    simp only [stepW] at h
    rcases hu : updateOneToOne w.mgr id st with _ | rr
    · rw [hu] at h; cases h
    · rw [hu] at h
      cases h
      have hfr := updateOneToOne_gcFrame hu
      refine ⟨gcInv_of_gcFields_eq hfr hi, ?_⟩
      have : rr.2.2.1.lastCollectedGenStep = w.mgr.lastCollectedGenStep :=
        congrArg (fun t => t.2.2.1) hfr
      exact this ▸ gsLe_refl _
  | eraseBlob id st =>
    simp only [stepW] at h
    cases h
    exact ⟨gcInv_of_gcFields_eq (eraseOneToOne_gcFrame w.mgr id st) hi, gsLe_refl _⟩

/-- The GC invariant holds in every reachable state. -/
theorem reachable_gcInv {info : TTabletStorageInfo} {gen : Nat} {thr itv : Int} {w : World}
    (h : Reachable info gen thr itv w) : GCInv w.mgr := by
  induction h with
  | init =>
    refine ⟨List.Pairwise.nil, (by intro a ha; cases ha), (by intro a ha; cases ha),
      gsLe_refl _, gsLe_refl _, ?_, gsLe_refl _⟩
    unfold gsLe initWorld TBlobManager.mkNew
    dsimp only
    omega
  | step op hr hs ih => exact (stepW_inv hs ih).1

/-- When TryMoveGCBarrier proposes a round, the new NewCollectGenStep sits
strictly below every allocation remaining in the queue, equals the current
GenStep when the queue has been emptied, and dominates exactly the popped
allocations, all of which were finished. -/
theorem tryMoveGCBarrier_true_spec {m : TBlobManager} {now : Nat} {mA : TBlobManager}
    (hi : GCInv m) (h : tryMoveGCBarrier m now = some (true, mA)) :
    (∀ a ∈ mA.allocatedGenSteps, gsLt mA.newCollectGenStep a.genStep) ∧
    (mA.allocatedGenSteps = [] → mA.newCollectGenStep = (m.currentGen, m.currentStep)) ∧
    (∀ a ∈ m.allocatedGenSteps, a ∉ mA.allocatedGenSteps →
      a.finished = true ∧ gsLe a.genStep mA.newCollectGenStep) ∧
    mA.allocatedGenSteps.Sublist m.allocatedGenSteps := by
  obtain ⟨hs, hee, hnc, hln, hcn, hnu, hlc⟩ := hi
  unfold tryMoveGCBarrier at h
  by_cases h1 : m.perGroupGCListsInFlight ≠ []
  · rw [if_pos h1] at h; cases h
  rw [if_neg h1] at h
  by_cases h2 : m.blobsToKeep = [] ∧ m.blobsToDelete = [] ∧
      m.lastCollectedGenStep = (m.currentGen, m.currentStep)
  · rw [if_pos h2] at h; cases h
  rw [if_neg h2] at h
  by_cases h3 : (m.blobsToKeep.length : Int) < m.blobCountToTriggerGC ∧
      (m.blobsToDelete.length : Int) < m.blobCountToTriggerGC ∧
      (now : Int) < (m.previousGCTime : Int) + m.gcIntervalSeconds
  · rw [if_pos h3] at h; cases h
  rw [if_neg h3] at h
  rw [if_neg (by simpa using hln)] at h
  obtain ⟨nc2, rest, hpop, hle, hsub, hlt, hpopped, hfrom⟩ :=
    popFinishedFront_spec hs hnc (fun a ha => gsLt_of_gsLe_of_gsLt hcn (hnc a ha))
  rw [hpop] at h
  simp only [Option.some.injEq, Prod.mk.injEq] at h
  obtain ⟨hdec, hma⟩ := h
  subst hma
  dsimp only
  by_cases hre : rest = []
  · subst hre
    refine ⟨?_, fun _ => by simp, ?_, by simp⟩
    · intro a ha
      simp at ha
    · intro a ha _
      exact ⟨(hpopped a ha (by simp)).1, by simpa using hee a ha⟩
  · simp only [if_neg hre]
    exact ⟨hlt, fun hc => absurd hc hre, hpopped, hsub⟩

end GCInvariant

section DeferredDeleteLemmas

/-- MarkInUse(id, true) only bumps the use-count table. -/
theorem setBlobInUse_true_eq (m : TBlobManager) (id : TUnifiedBlobId) :
    setBlobInUse m id true = some { m with blobsUseCount :=
      (match lookupA id m.blobsUseCount with
       | some c => setA id (c + 1) m.blobsUseCount
       | none => setA id 1 m.blobsUseCount) } := by
  unfold setBlobInUse
  rw [if_pos rfl]
  split <;> rfl

/-- MarkInUse(id, false) with more than one outstanding use only decrements
the use-count table. -/
theorem setBlobInUse_false_dec {m : TBlobManager} {id : TUnifiedBlobId} {c : Nat}
    (h : lookupA id m.blobsUseCount = some c) (hc : 0 < c - 1) :
    setBlobInUse m id false =
      some { m with blobsUseCount := setA id (c - 1) m.blobsUseCount } := by
  unfold setBlobInUse
  simp only [Bool.false_eq_true, if_false]
  rw [h]
  dsimp only
  rw [if_pos hc]

/-- The final MarkInUse(id, false) of a small blob in the delayed set erases
the count entry and promotes the blob into the small-blob delete set. -/
theorem setBlobInUse_false_zero_small {m : TBlobManager} {id : TUnifiedBlobId} {c : Nat}
    (hsm : id.isSmallBlob = true)
    (h : lookupA id m.blobsUseCount = some c) (hc : ¬ 0 < c - 1)
    (hdel : id ∈ m.smallBlobsToDeleteDelayed) :
    setBlobInUse m id false = some
      { m with blobsUseCount := eraseA id m.blobsUseCount
               smallBlobsToDeleteDelayed := m.smallBlobsToDeleteDelayed.erase id
               smallBlobsToDelete := hsInsert id m.smallBlobsToDelete } := by
  unfold setBlobInUse
  simp only [Bool.false_eq_true, if_false]
  rw [h]
  dsimp only
  rw [if_neg hc]
  rw [if_pos hsm]
  rw [if_pos hdel]

/-- The final MarkInUse(id, false) of a store blob in the delayed set erases
the count entry and promotes the blob into the Delete queue. -/
theorem setBlobInUse_false_zero_store {m : TBlobManager} {id : TUnifiedBlobId} {c : Nat}
    (hsm : id.isSmallBlob = false)
    (h : lookupA id m.blobsUseCount = some c) (hc : ¬ 0 < c - 1)
    (hdel : id.getLogoBlobId ∈ m.blobsToDeleteDelayed) :
    setBlobInUse m id false = some
      { m with blobsUseCount := eraseA id m.blobsUseCount
               blobsToDelete := insertLogo id.getLogoBlobId m.blobsToDelete
               blobsToDeleteDelayed := m.blobsToDeleteDelayed.erase id.getLogoBlobId } := by
  unfold setBlobInUse
  simp only [Bool.false_eq_true, if_false]
  rw [h]
  dsimp only
  rw [if_neg hc]
  rw [if_neg (by simp [hsm])]
  rw [if_pos hdel]

/-- Repeated MarkInUse(id, true) leaves the deletion structures and the
tablet info untouched. -/
theorem applyUseTrue_fields {id : TUnifiedBlobId} :
    ∀ (k : Nat) (m : TBlobManager),
    (applyUseTrue id k m).blobsToDelete = m.blobsToDelete ∧
    (applyUseTrue id k m).blobsToDeleteDelayed = m.blobsToDeleteDelayed ∧
    (applyUseTrue id k m).smallBlobsToDelete = m.smallBlobsToDelete ∧
    (applyUseTrue id k m).smallBlobsToDeleteDelayed = m.smallBlobsToDeleteDelayed := by
  intro k
  induction k with
  | zero => intro m; exact ⟨rfl, rfl, rfl, rfl⟩
  | succ k ih =>
    intro m
    unfold applyUseTrue
    rw [setBlobInUse_true_eq m id]
    dsimp only
    exact ih _

/-- k MarkInUse(id, true) calls raise the use count by k. -/
theorem applyUseTrue_count {id : TUnifiedBlobId} :
    ∀ (k : Nat) (m : TBlobManager) (c : Nat),
    lookupA id m.blobsUseCount = some c →
    lookupA id (applyUseTrue id k m).blobsUseCount = some (c + k) := by
  intro k
  induction k with
  | zero => intro m c h; simpa using h
  | succ k ih =>
    intro m c h
    unfold applyUseTrue
    rw [setBlobInUse_true_eq m id]
    dsimp only
    rw [h]
    dsimp only
    have hrec := ih { m with blobsUseCount := setA id (c + 1) m.blobsUseCount } (c + 1)
      (lookupA_setA_self id (c + 1) m.blobsUseCount)
    rw [show c + (k + 1) = c + 1 + k by omega]
    exact hrec

/-- n MarkInUse(id, true) calls from an absent entry give use count n. -/
theorem applyUseTrue_from_none {id : TUnifiedBlobId} {m : TBlobManager} {n : Nat}
    (h : lookupA id m.blobsUseCount = none) (hn : 0 < n) :
    lookupA id (applyUseTrue id n m).blobsUseCount = some n := by
  cases n with
  | zero => omega
  | succ k =>
    unfold applyUseTrue
    rw [setBlobInUse_true_eq m id]
    dsimp only
    rw [h]
    dsimp only
    have hrec := applyUseTrue_count k { m with blobsUseCount := setA id 1 m.blobsUseCount } 1
      (lookupA_setA_self id 1 m.blobsUseCount)
    rw [show k + 1 = 1 + k by omega]
    exact hrec

/-- Draining a small blob's use count: no promotion happens before the
count reaches zero; at zero the blob enters the small-blob delete set
exactly once and leaves the delayed set. -/
theorem applyUnuse_drain_small {id : TUnifiedBlobId} (hsm : id.isSmallBlob = true) :
    ∀ (c : Nat) (m : TBlobManager),
    lookupA id m.blobsUseCount = some c → 0 < c →
    id ∈ m.smallBlobsToDeleteDelayed → id ∉ m.smallBlobsToDelete →
    m.smallBlobsToDelete.Nodup → m.smallBlobsToDeleteDelayed.Nodup →
    (∀ k, k < c → ∀ mk, applyUnuse id k m = some mk → id ∉ mk.smallBlobsToDelete) ∧
    (∃ mf, applyUnuse id c m = some mf ∧ id ∈ mf.smallBlobsToDelete ∧
      mf.smallBlobsToDelete.count id = 1 ∧ id ∉ mf.smallBlobsToDeleteDelayed) := by
  intro c
  induction c with
  | zero => intro m _ h0; omega
  | succ c ih =>
    intro m hl hpos hdel hact hnd hndd
    by_cases hc : c = 0
    · subst hc
      have hset := setBlobInUse_false_zero_small hsm hl (by omega) hdel
      have hins : hsInsert id m.smallBlobsToDelete = id :: m.smallBlobsToDelete := by
        unfold hsInsert
        rw [if_neg hact]
      have hmf : applyUnuse id (0 + 1) m = some
          { m with blobsUseCount := eraseA id m.blobsUseCount,
                   smallBlobsToDeleteDelayed := m.smallBlobsToDeleteDelayed.erase id,
                   smallBlobsToDelete := hsInsert id m.smallBlobsToDelete } := by
        simp only [applyUnuse]
        rw [hset]
      refine ⟨?_, ⟨_, hmf, ?_, ?_, ?_⟩⟩
      · intro k hk mk hmk
        have hk0 : k = 0 := by omega
        subst hk0
        cases hmk
        exact hact
      · exact mem_hsInsert.mpr (Or.inl rfl)
      · show (hsInsert id m.smallBlobsToDelete).count id = 1
        rw [hins, List.count_cons_self, List.count_eq_zero.mpr hact]
      · exact hndd.not_mem_erase
    · have hcpos : 0 < c := Nat.pos_of_ne_zero hc
      have hset := setBlobInUse_false_dec hl (by omega : 0 < c + 1 - 1)
      have hstep : ∀ j, applyUnuse id (j + 1) m =
          applyUnuse id j { m with blobsUseCount := setA id (c + 1 - 1) m.blobsUseCount } := by
        intro j
        simp only [applyUnuse]
        rw [hset]
      obtain ⟨hlt, mf, hmf, hmem, hcount, hnodel⟩ :=
        ih { m with blobsUseCount := setA id (c + 1 - 1) m.blobsUseCount }
          (by simpa using lookupA_setA_self id (c + 1 - 1) m.blobsUseCount)
          hcpos hdel hact hnd hndd
      refine ⟨?_, ⟨mf, ?_, hmem, hcount, hnodel⟩⟩
      · intro k hk mk hmk
        cases k with
        | zero => cases hmk; exact hact
        | succ j =>
          rw [hstep j] at hmk
          exact hlt j (by omega) mk hmk
      · rw [hstep c]
        exact hmf

/-- Draining a store blob's use count: no promotion into the Delete queue
before the count reaches zero; at zero the blob enters the Delete queue
exactly once and leaves the delayed set. -/
theorem applyUnuse_drain_store {id : TUnifiedBlobId} (hsm : id.isSmallBlob = false) :
    ∀ (c : Nat) (m : TBlobManager),
    lookupA id m.blobsUseCount = some c → 0 < c →
    id.getLogoBlobId ∈ m.blobsToDeleteDelayed → id.getLogoBlobId ∉ m.blobsToDelete →
    m.blobsToDelete.Pairwise ltLogo → m.blobsToDeleteDelayed.Nodup →
    (∀ k, k < c → ∀ mk, applyUnuse id k m = some mk →
      id.getLogoBlobId ∉ mk.blobsToDelete) ∧
    (∃ mf, applyUnuse id c m = some mf ∧ id.getLogoBlobId ∈ mf.blobsToDelete ∧
      mf.blobsToDelete.count id.getLogoBlobId = 1 ∧
      id.getLogoBlobId ∉ mf.blobsToDeleteDelayed) := by
  intro c
  induction c with
  | zero => intro m _ h0; omega
  | succ c ih =>
    intro m hl hpos hdel hact hnd hndd
    by_cases hc : c = 0
    · subst hc
      have hset := setBlobInUse_false_zero_store hsm hl (by omega) hdel
      have hnodup : (insertLogo id.getLogoBlobId m.blobsToDelete).Nodup :=
        nodup_of_pairwise_ltLogo (pairwise_insertLogo hnd)
      have hmf : applyUnuse id (0 + 1) m = some
          { m with blobsUseCount := eraseA id m.blobsUseCount,
                   blobsToDelete := insertLogo id.getLogoBlobId m.blobsToDelete,
                   blobsToDeleteDelayed := m.blobsToDeleteDelayed.erase id.getLogoBlobId } := by
        simp only [applyUnuse]
        rw [hset]
      refine ⟨?_, ⟨_, hmf, ?_, ?_, ?_⟩⟩
      · intro k hk mk hmk
        have hk0 : k = 0 := by omega
        subst hk0
        cases hmk
        exact hact
      · exact mem_insertLogo.mpr (Or.inl rfl)
      · show (insertLogo id.getLogoBlobId m.blobsToDelete).count id.getLogoBlobId = 1
        exact List.count_eq_one_of_mem hnodup (mem_insertLogo.mpr (Or.inl rfl))
      · exact hndd.not_mem_erase
    · have hcpos : 0 < c := Nat.pos_of_ne_zero hc
      have hset := setBlobInUse_false_dec hl (by omega : 0 < c + 1 - 1)
      have hstep : ∀ j, applyUnuse id (j + 1) m =
          applyUnuse id j { m with blobsUseCount := setA id (c + 1 - 1) m.blobsUseCount } := by
        intro j
        simp only [applyUnuse]
        rw [hset]
      obtain ⟨hlt, mf, hmf, hmem, hcount, hnodel⟩ :=
        ih { m with blobsUseCount := setA id (c + 1 - 1) m.blobsUseCount }
          (by simpa using lookupA_setA_self id (c + 1 - 1) m.blobsUseCount)
          hcpos hdel hact hnd hndd
      refine ⟨?_, ⟨mf, ?_, hmem, hcount, hnodel⟩⟩
      · intro k hk mk hmk
        cases k with
        | zero => cases hmk; exact hact
        | succ j =>
          rw [hstep j] at hmk
          exact hlt j (by omega) mk hmk
      · rw [hstep c]
        exact hmf

/-- DeleteBlob on a small blob with a non-zero use count flushes the
pending small-blob deletes and parks the blob in the delayed set. -/
theorem deleteBlob_delayed_small {m : TBlobManager} {id : TUnifiedBlobId}
    (hsm : id.isSmallBlob = true) (h : lookupA id m.blobsUseCount ≠ none) :
    (deleteBlob m id).1 =
      { m with smallBlobsToDelete := [],
               smallBlobsToDeleteDelayed := hsInsert id m.smallBlobsToDeleteDelayed } := by
  unfold deleteBlob performDelayedDeletes
  dsimp only
  simp only [hsm, if_true]
  rw [if_neg h]

/-- DeleteBlob on a store blob with a non-zero use count flushes the
pending small-blob deletes and parks the blob in the delayed set. -/
theorem deleteBlob_delayed_store {m : TBlobManager} {id : TUnifiedBlobId}
    (hsm : id.isSmallBlob = false) (h : lookupA id m.blobsUseCount ≠ none) :
    (deleteBlob m id).1 =
      { m with smallBlobsToDelete := [],
               blobsToDeleteDelayed := hsInsert id.getLogoBlobId m.blobsToDeleteDelayed } := by
  unfold deleteBlob performDelayedDeletes
  dsimp only
  simp only [hsm, Bool.false_eq_true, if_false]
  rw [if_neg h]

end DeferredDeleteLemmas

section KeepQueueLemmas

theorem startBlobBatch_keep {m : TBlobManager} {ch : Nat} {m1 : TBlobManager} {b : TBatchInfo}
    (h : startBlobBatch m ch = some (m1, b)) : m1.blobsToKeep = m.blobsToKeep := by
  unfold startBlobBatch at h
  split at h
  · cases h
  · cases h; rfl

/-- Along write-batch operations the Keep queue stays strictly sorted and
contains exactly the identifiers committed so far. -/
theorem reachableB_keep_exact {info : TTabletStorageInfo} {gen : Nat} {thr itv : Int}
    {w : World} (h : ReachableB info gen thr itv w) :
    (∀ a, a ∈ w.mgr.blobsToKeep ↔ a ∈ w.committed) ∧
    w.mgr.blobsToKeep.Pairwise ltLogo := by
  induction h with
  | init =>
    refine ⟨?_, List.Pairwise.nil⟩
    intro a
    constructor
    · intro ha; cases ha
    · intro ha; cases ha
  | @step w1 w2 op hr hb hs ih =>
    obtain ⟨ihm, ihs⟩ := ih
    cases op with
    | startBatch ch =>
      simp only [stepW] at hs
      rcases hsb : startBlobBatch w1.mgr ch with _ | ⟨mA, b⟩
      · rw [hsb] at hs; cases hs
      · rw [hsb] at hs
        cases hs
        refine ⟨?_, ?_⟩
        · intro a
          show a ∈ mA.blobsToKeep ↔ a ∈ w1.committed
          rw [startBlobBatch_keep hsb]
          exact ihm a
        · show mA.blobsToKeep.Pairwise ltLogo
          rw [startBlobBatch_keep hsb]
          exact ihs
    | allocateBlob g s size =>
      simp only [stepW] at hs
      rcases hgb : getBatch g s w1.batches with _ | b
      · rw [hgb] at hs; cases hs
      · rw [hgb] at hs
        dsimp only at hs
        rcases hsw : sendWriteBlobRequest b size with _ | b1
        · rw [hsw] at hs; cases hs
        · rw [hsw] at hs; cases hs; exact ⟨ihm, ihs⟩
    | allocSmall g s size =>
      simp only [stepW] at hs
      rcases hgb : getBatch g s w1.batches with _ | b
      · rw [hgb] at hs; cases hs
      · rw [hgb] at hs; cases hs; exact ⟨ihm, ihs⟩
    | ackWrite g s cookie =>
      simp only [stepW] at hs
      rcases hgb : getBatch g s w1.batches with _ | b
      · rw [hgb] at hs; cases hs
      · rw [hgb] at hs
        dsimp only at hs
        rcases hbw : onBlobWriteResult b cookie with _ | b1
        · rw [hbw] at hs; cases hs
        · rw [hbw] at hs; cases hs; exact ⟨ihm, ihs⟩
    | commitBatch g s =>
      simp only [stepW] at hs
      rcases hgb : getBatch g s w1.batches with _ | b
      · rw [hgb] at hs; cases hs
      · rw [hgb] at hs
        cases hs
        constructor
        · intro a
          show a ∈ (batchKeepIds w1.mgr.tabletInfo b).foldl
            (fun s id => insertLogo id s) w1.mgr.blobsToKeep ↔
            a ∈ w1.committed ++ batchKeepIds w1.mgr.tabletInfo b
          rw [mem_foldl_insertLogo, List.mem_append, ihm a]
        · exact pairwise_foldl_insertLogo ihs
    | requestDelete id => simp [isBatchOp] at hb
    | markInUse id u => simp [isBatchOp] at hb
    | tryMove now => simp [isBatchOp] at hb
    | prepareGC now => simp [isBatchOp] at hb
    | gcResult counter => simp [isBatchOp] at hb
    | exportBlob id meta => simp [isBatchOp] at hb
    | dropBlob id => simp [isBatchOp] at hb
    | updateBlob id st => simp [isBatchOp] at hb
    | eraseBlob id st => simp [isBatchOp] at hb

end KeepQueueLemmas

section PerGroupLemmas

theorem lookupA_append {α β : Type} [DecidableEq α] (k : α) (l1 l2 : List (α × β)) :
    lookupA k (l1 ++ l2) =
      match lookupA k l1 with
      | some v => some v
      | none => lookupA k l2 := by
  induction l1 with
  | nil => rfl
  | cons p ps ih =>
    by_cases hp : p.1 = k <;> simp [lookupA, hp, ih]

theorem keepOf_addGroup (g g2 : Nat) (pg : List (Nat × TGCLists)) :
    keepOf g (addGroup g2 pg) = keepOf g pg := by
  unfold addGroup keepOf
  rcases h : lookupA g2 pg with _ | v
  · rw [lookupA_append]
    rcases h2 : lookupA g pg with _ | v2
    · by_cases hg : g2 = g
      · simp [lookupA, hg, TGCLists.empty]
      · simp [lookupA, hg]
    · simp
  · rfl

theorem dontOf_addGroup (g g2 : Nat) (pg : List (Nat × TGCLists)) :
    dontOf g (addGroup g2 pg) = dontOf g pg := by
  unfold addGroup dontOf
  rcases h : lookupA g2 pg with _ | v
  · rw [lookupA_append]
    rcases h2 : lookupA g pg with _ | v2
    · by_cases hg : g2 = g
      · simp [lookupA, hg, TGCLists.empty]
      · simp [lookupA, hg]
    · simp
  · rfl

theorem keepOf_setA_self (g : Nat) (ls : TGCLists) (pg : List (Nat × TGCLists)) :
    keepOf g (setA g ls pg) = ls.keepList := by
  unfold keepOf
  rw [lookupA_setA_self]
  rfl

theorem dontOf_setA_self (g : Nat) (ls : TGCLists) (pg : List (Nat × TGCLists)) :
    dontOf g (setA g ls pg) = ls.dontKeepList := by
  unfold dontOf
  rw [lookupA_setA_self]
  rfl

theorem keepOf_setA_ne {g g2 : Nat} (ls : TGCLists) (pg : List (Nat × TGCLists))
    (h : g ≠ g2) : keepOf g (setA g2 ls pg) = keepOf g pg := by
  unfold keepOf
  rw [lookupA_setA_ne _ _ h]

theorem dontOf_setA_ne {g g2 : Nat} (ls : TGCLists) (pg : List (Nat × TGCLists))
    (h : g ≠ g2) : dontOf g (setA g2 ls pg) = dontOf g pg := by
  unfold dontOf
  rw [lookupA_setA_ne _ _ h]

theorem keepOf_foldl_addGroup (gs : List Nat) :
    ∀ (pg : List (Nat × TGCLists)) (g : Nat),
    keepOf g (gs.foldl (fun pg g2 => addGroup g2 pg) pg) = keepOf g pg ∧
    dontOf g (gs.foldl (fun pg g2 => addGroup g2 pg) pg) = dontOf g pg := by
  induction gs with
  | nil => intro pg g; exact ⟨rfl, rfl⟩
  | cons x xs ih =>
    intro pg g
    simp only [List.foldl_cons]
    obtain ⟨h1, h2⟩ := ih (addGroup x pg) g
    exact ⟨h1.trans (keepOf_addGroup g x pg), h2.trans (dontOf_addGroup g x pg)⟩

theorem keepOf_initGroups (g : Nat) (info : TTabletStorageInfo) (a b : Nat) :
    keepOf g (initGroups info a b) = [] ∧ dontOf g (initGroups info a b) = [] := by
  unfold initGroups
  obtain ⟨h1, h2⟩ := keepOf_foldl_addGroup _ [] g
  exact ⟨h1, h2⟩

theorem peelKeep_dontOf (info : TTabletStorageInfo) (target : TGenStep) :
    ∀ (l : List TLogoBlobID) (pg : List (Nat × TGCLists)) (g : Nat),
    dontOf g (peelKeep info target l pg).2 = dontOf g pg := by
  intro l
  induction l with
  | nil => intro pg g; rfl
  | cons x rest ih =>
    intro pg g
    unfold peelKeep
    dsimp only
    split
    · rfl
    · rw [ih]
      by_cases hg : g = groupFor info x.channel x.generation
      · rw [hg, dontOf_setA_self]
        show dontOf _ (addGroup _ pg) = dontOf _ pg
        exact dontOf_addGroup _ _ pg
      · rw [dontOf_setA_ne _ _ hg, dontOf_addGroup]

theorem peelKeep_keepOf_mono (info : TTabletStorageInfo) (target : TGenStep)
    {b : TLogoBlobID} {g : Nat} :
    ∀ (l : List TLogoBlobID) (pg : List (Nat × TGCLists)),
    b ∈ keepOf g pg → b ∈ keepOf g (peelKeep info target l pg).2 := by
  intro l
  induction l with
  | nil => intro pg h; exact h
  | cons x rest ih =>
    intro pg h
    unfold peelKeep
    dsimp only
    split
    · exact h
    · apply ih
      by_cases hg : g = groupFor info x.channel x.generation
      · rw [hg] at h ⊢
        rw [keepOf_setA_self]
        refine mem_hsInsert.mpr (Or.inr ?_)
        show b ∈ keepOf _ (addGroup _ pg)
        rw [keepOf_addGroup]
        exact h
      · rw [keepOf_setA_ne _ _ hg, keepOf_addGroup]
        exact h

theorem peelKeep_keepOf_nodup (info : TTabletStorageInfo) (target : TGenStep) {g : Nat} :
    ∀ (l : List TLogoBlobID) (pg : List (Nat × TGCLists)),
    (keepOf g pg).Nodup → (keepOf g (peelKeep info target l pg).2).Nodup := by
  intro l
  induction l with
  | nil => intro pg h; exact h
  | cons x rest ih =>
    intro pg h
    unfold peelKeep
    dsimp only
    split
    · exact h
    · apply ih
      by_cases hg : g = groupFor info x.channel x.generation
      · rw [hg] at h ⊢
        rw [keepOf_setA_self]
        refine nodup_hsInsert ?_
        show ((keepOf _ (addGroup _ pg))).Nodup
        rw [keepOf_addGroup]
        exact h
      · rw [keepOf_setA_ne _ _ hg, keepOf_addGroup]
        exact h

theorem peelKeep_mem (info : TTabletStorageInfo) (target : TGenStep) {b : TLogoBlobID}
    (hble : gsLe b.genStep target) :
    ∀ (l : List TLogoBlobID) (pg : List (Nat × TGCLists)),
    l.Pairwise ltLogo → (∀ x ∈ l, x.tabletID = b.tabletID) → b ∈ l →
    b ∈ keepOf (groupFor info b.channel b.generation) (peelKeep info target l pg).2 := by
  intro l
  induction l with
  | nil => intro pg _ _ hb; cases hb
  | cons x rest ih =>
    intro pg hp ht hb
    rcases List.pairwise_cons.mp hp with ⟨hx, hrest⟩
    unfold peelKeep
    dsimp only
    split
    · rename_i hbreak
      exfalso
      rcases List.mem_cons.mp hb with rfl | hbr
      · exact not_gsLt_of_gsLe hble hbreak
      · have hts : x.tabletID = b.tabletID := ht x (List.mem_cons_self x rest)
        have hxle : gsLe x.genStep b.genStep := gsLe_genStep_of_ltLogo (hx b hbr) hts
        exact not_gsLt_of_gsLe (gsLe_trans hxle hble) hbreak
    · rcases List.mem_cons.mp hb with rfl | hbr
      · apply peelKeep_keepOf_mono
        rw [keepOf_setA_self]
        exact mem_hsInsert.mpr (Or.inl rfl)
      · exact ih _ hrest (fun y hy => ht y (List.mem_cons_of_mem x hy)) hbr

theorem mem_keys_setA {α β : Type} [DecidableEq α] {x k : α} (v : β) :
    ∀ (l : List (α × β)), x ∈ (setA k v l).map Prod.fst → x = k ∨ x ∈ l.map Prod.fst := by
  intro l
  induction l with
  | nil =>
    intro h
    simp only [setA, List.map_cons, List.map_nil, List.mem_cons, List.not_mem_nil,
      or_false] at h
    exact Or.inl h
  | cons p ps ih =>
    intro h
    by_cases hp : p.1 = k
    · simp only [setA, if_pos hp, List.map_cons, List.mem_cons] at h
      rcases h with h | h
      · exact Or.inl h
      · simp only [List.map_cons, List.mem_cons]
        exact Or.inr (Or.inr h)
    · simp only [setA, if_neg hp, List.map_cons, List.mem_cons] at h
      rcases h with h | h
      · simp only [List.map_cons, List.mem_cons]
        exact Or.inr (Or.inl h)
      · rcases ih h with h2 | h2
        · exact Or.inl h2
        · simp only [List.map_cons, List.mem_cons]
          exact Or.inr (Or.inr h2)

theorem keysNodup_setA (k : Nat) (v : TGCLists) :
    ∀ (l : List (Nat × TGCLists)), keysNodup l → keysNodup (setA k v l) := by
  intro l
  induction l with
  | nil =>
    intro _
    simp [keysNodup, setA]
  | cons p ps ih =>
    intro h
    unfold keysNodup at h ⊢
    simp only [List.map_cons, List.nodup_cons] at h
    obtain ⟨hp, hps⟩ := h
    by_cases hk : p.1 = k
    · simp only [setA, if_pos hk, List.map_cons, List.nodup_cons]
      exact ⟨hk ▸ hp, hps⟩
    · simp only [setA, if_neg hk, List.map_cons, List.nodup_cons]
      refine ⟨?_, ih hps⟩
      intro hc
      rcases mem_keys_setA v ps hc with h2 | h2
      · exact hk h2
      · exact hp h2

theorem keysNodup_addGroup (g : Nat) (pg : List (Nat × TGCLists))
    (h : keysNodup pg) : keysNodup (addGroup g pg) := by
  unfold addGroup
  rcases hl : lookupA g pg with _ | v
  · unfold keysNodup at h ⊢
    rw [List.map_append]
    simp only [List.map_cons, List.map_nil]
    rw [List.nodup_append]
    refine ⟨h, List.nodup_singleton g, ?_⟩
    intro a ha hb
    simp only [List.mem_singleton] at hb
    subst hb
    exact lookupA_eq_none_iff.mp hl ha
  · exact h

theorem keysNodup_foldl_addGroup (gs : List Nat) :
    ∀ (pg : List (Nat × TGCLists)), keysNodup pg →
    keysNodup (gs.foldl (fun pg g2 => addGroup g2 pg) pg) := by
  induction gs with
  | nil => intro pg h; exact h
  | cons x xs ih =>
    intro pg h
    simp only [List.foldl_cons]
    exact ih _ (keysNodup_addGroup x pg h)

theorem keysNodup_initGroups (info : TTabletStorageInfo) (a b : Nat) :
    keysNodup (initGroups info a b) := by
  unfold initGroups
  exact keysNodup_foldl_addGroup _ [] (by simp [keysNodup])

theorem keysNodup_peelKeep (info : TTabletStorageInfo) (target : TGenStep) :
    ∀ (l : List TLogoBlobID) (pg : List (Nat × TGCLists)), keysNodup pg →
    keysNodup (peelKeep info target l pg).2 := by
  intro l
  induction l with
  | nil => intro pg h; exact h
  | cons x rest ih =>
    intro pg h
    unfold peelKeep
    dsimp only
    split
    · exact h
    · exact ih _ (keysNodup_setA _ _ _ (keysNodup_addGroup _ pg h))

theorem keysNodup_peelDelete (info : TTabletStorageInfo) (curGen : Nat)
    (target : TGenStep) :
    ∀ (l : List TLogoBlobID) (pg : List (Nat × TGCLists)), keysNodup pg →
    keysNodup (peelDelete info curGen target l pg).2 := by
  intro l
  induction l with
  | nil => intro pg h; exact h
  | cons x rest ih =>
    intro pg h
    unfold peelDelete
    dsimp only
    split
    · exact h
    · exact ih _ (keysNodup_setA _ _ _ (keysNodup_addGroup _ pg h))

theorem lookupA_of_mem_keysNodup {α β : Type} [DecidableEq α] {k : α} {v : β} :
    ∀ (l : List (α × β)), (l.map Prod.fst).Nodup → (k, v) ∈ l → lookupA k l = some v := by
  intro l
  induction l with
  | nil => intro _ h; cases h
  | cons p ps ih =>
    intro hn hm
    simp only [List.map_cons, List.nodup_cons] at hn
    rcases List.mem_cons.mp hm with he | hm2
    · subst he
      simp [lookupA]
    · unfold lookupA
      by_cases hp : p.1 = k
      · exfalso
        apply hn.1
        rw [hp]
        exact List.mem_map_of_mem Prod.fst hm2
      · rw [if_neg hp]
        exact ih hn.2 hm2

theorem buildRequests_mem (tid gen ch : Nat) (target : TGenStep) {g : Nat}
    {req : TGCRequest} :
    ∀ (pg : List (Nat × TGCLists)) (c : Nat),
    (g, req) ∈ (buildRequests tid gen ch target pg c).1 →
    ∃ ls, (g, ls) ∈ pg ∧ req.keep = ls.keepList ∧ req.dontKeep = ls.dontKeepList := by
  intro pg
  induction pg with
  | nil => intro c h; cases h
  | cons p ps ih =>
    intro c h
    rcases p with ⟨g2, ls2⟩
    unfold buildRequests at h
    dsimp only at h
    rcases List.mem_cons.mp h with he | hm
    · rw [Prod.mk.injEq] at he
      obtain ⟨hg, hr⟩ := he
      subst hg
      subst hr
      exact ⟨ls2, List.mem_cons_self _ _, rfl, rfl⟩
    · obtain ⟨ls, hmem, hkq, hdq⟩ := ih (c + 1) hm
      exact ⟨ls, List.mem_cons_of_mem _ hmem, hkq, hdq⟩

theorem peelDelete_keepOf_absent (info : TTabletStorageInfo) (curGen : Nat)
    (target : TGenStep) {b : TLogoBlobID} {g : Nat} :
    ∀ (l : List TLogoBlobID) (pg : List (Nat × TGCLists)),
    b ∉ keepOf g pg → b ∉ keepOf g (peelDelete info curGen target l pg).2 := by
  intro l
  induction l with
  | nil => intro pg h; exact h
  | cons x rest ih =>
    intro pg h
    unfold peelDelete
    dsimp only
    split
    · exact h
    · apply ih
      by_cases hg : g = groupFor info x.channel x.generation
      · rw [hg] at h ⊢
        rw [keepOf_setA_self]
        have h1 : b ∉ keepOf (groupFor info x.channel x.generation)
            (addGroup (groupFor info x.channel x.generation) pg) := by
          rw [keepOf_addGroup]; exact h
        split
        · dsimp only
          split
          · dsimp only
            intro hc
            exact h1 (List.mem_of_mem_erase hc)
          · exact h1
        · dsimp only
          split
          · dsimp only
            intro hc
            exact h1 (List.mem_of_mem_erase hc)
          · exact h1
      · rw [keepOf_setA_ne _ _ hg, keepOf_addGroup]
        exact h

theorem peelDelete_dontOf_absent (info : TTabletStorageInfo) (curGen : Nat)
    (target : TGenStep) {b : TLogoBlobID} {g : Nat} :
    ∀ (l : List TLogoBlobID) (pg : List (Nat × TGCLists)),
    b ∉ l → b ∉ dontOf g pg → b ∉ dontOf g (peelDelete info curGen target l pg).2 := by
  intro l
  induction l with
  | nil => intro pg _ h; exact h
  | cons x rest ih =>
    intro pg hbl h
    have hbx : b ≠ x := fun he => hbl (he ▸ List.mem_cons_self x rest)
    have hbr : b ∉ rest := fun hc => hbl (List.mem_cons_of_mem x hc)
    unfold peelDelete
    dsimp only
    split
    · exact h
    · apply ih _ hbr
      by_cases hg : g = groupFor info x.channel x.generation
      · rw [hg] at h ⊢
        rw [dontOf_setA_self]
        have h1 : b ∉ dontOf (groupFor info x.channel x.generation)
            (addGroup (groupFor info x.channel x.generation) pg) := by
          rw [dontOf_addGroup]; exact h
        split
        · dsimp only
          split
          · exact h1
          · exact h1
        · dsimp only
          intro hc
          rcases mem_hsInsert.mp hc with hc | hc
          · exact hbx hc
          · revert hc
            split
            · exact h1
            · exact h1
      · rw [dontOf_setA_ne _ _ hg, dontOf_addGroup]
        exact h

theorem peelDelete_clears (info : TTabletStorageInfo) (curGen : Nat)
    (target : TGenStep) {b : TLogoBlobID} (hble : gsLe b.genStep target) :
    ∀ (l : List TLogoBlobID) (pg : List (Nat × TGCLists)),
    l.Pairwise ltLogo → (∀ x ∈ l, x.tabletID = b.tabletID) → b ∈ l →
    b ∈ keepOf (groupFor info b.channel b.generation) pg →
    (keepOf (groupFor info b.channel b.generation) pg).Nodup →
    b ∉ dontOf (groupFor info b.channel b.generation) pg →
    b ∉ keepOf (groupFor info b.channel b.generation)
        (peelDelete info curGen target l pg).2 ∧
    (curGen = b.generation →
      b ∉ dontOf (groupFor info b.channel b.generation)
        (peelDelete info curGen target l pg).2) := by
  intro l
  induction l with
  | nil => intro pg _ _ hb; cases hb
  | cons x rest ih =>
    intro pg hp ht hb hbk hnd hnotd
    rcases List.pairwise_cons.mp hp with ⟨hx, hrest⟩
    unfold peelDelete
    dsimp only
    split
    · rename_i hbreak
      exfalso
      rcases List.mem_cons.mp hb with rfl | hbr
      · exact not_gsLt_of_gsLe hble hbreak
      · have hts : x.tabletID = b.tabletID := ht x (List.mem_cons_self x rest)
        have hxle : gsLe x.genStep b.genStep := gsLe_genStep_of_ltLogo (hx b hbr) hts
        exact not_gsLt_of_gsLe (gsLe_trans hxle hble) hbreak
    · rcases List.mem_cons.mp hb with rfl | hbr
      · have hbk1 : b ∈ keepOf (groupFor info b.channel b.generation)
            (addGroup (groupFor info b.channel b.generation) pg) := by
          rw [keepOf_addGroup]; exact hbk
        have hnd1 : (keepOf (groupFor info b.channel b.generation)
            (addGroup (groupFor info b.channel b.generation) pg)).Nodup := by
          rw [keepOf_addGroup]; exact hnd
        have hnotd1 : b ∉ dontOf (groupFor info b.channel b.generation)
            (addGroup (groupFor info b.channel b.generation) pg) := by
          rw [dontOf_addGroup]; exact hnotd
        have hbr2 : b ∉ rest := fun hc => ltLogo_irrefl b (hx b hc)
        constructor
        · apply peelDelete_keepOf_absent
          rw [keepOf_setA_self]
          split
          · dsimp only
            split
            · dsimp only
              intro hc
              exact ((List.Nodup.mem_erase_iff hnd1).mp hc).1 rfl
            · rename_i hc1
              exact absurd hbk1 hc1
          · dsimp only
            split
            · dsimp only
              intro hc
              exact ((List.Nodup.mem_erase_iff hnd1).mp hc).1 rfl
            · rename_i hc1
              exact absurd hbk1 hc1
        · intro hcg
          apply peelDelete_dontOf_absent _ _ _ _ _ hbr2
          rw [dontOf_setA_self]
          split
          · dsimp only
            split
            · exact hnotd1
            · exact hnotd1
          · rename_i hc2
            exact absurd ⟨hbk1, hcg⟩ hc2
      · have hbx : b ≠ x := (ne_of_ltLogo (hx b hbr)).symm
        apply ih _ hrest (fun y hy => ht y (List.mem_cons_of_mem x hy)) hbr
        · by_cases hg : groupFor info b.channel b.generation =
              groupFor info x.channel x.generation
          · rw [hg] at hbk ⊢
            rw [keepOf_setA_self]
            have hbk1 : b ∈ keepOf (groupFor info x.channel x.generation)
                (addGroup (groupFor info x.channel x.generation) pg) := by
              rw [keepOf_addGroup]; exact hbk
            split
            · dsimp only
              split
              · dsimp only
                exact (List.mem_erase_of_ne hbx).mpr hbk1
              · exact hbk1
            · dsimp only
              split
              · dsimp only
                exact (List.mem_erase_of_ne hbx).mpr hbk1
              · exact hbk1
          · rw [keepOf_setA_ne _ _ hg, keepOf_addGroup]
            exact hbk
        · by_cases hg : groupFor info b.channel b.generation =
              groupFor info x.channel x.generation
          · rw [hg] at hnd ⊢
            rw [keepOf_setA_self]
            have hnd1 : (keepOf (groupFor info x.channel x.generation)
                (addGroup (groupFor info x.channel x.generation) pg)).Nodup := by
              rw [keepOf_addGroup]; exact hnd
            split
            · dsimp only
              split
              · dsimp only
                exact List.Nodup.erase x hnd1
              · exact hnd1
            · dsimp only
              split
              · dsimp only
                exact List.Nodup.erase x hnd1
              · exact hnd1
          · rw [keepOf_setA_ne _ _ hg, keepOf_addGroup]
            exact hnd
        · by_cases hg : groupFor info b.channel b.generation =
              groupFor info x.channel x.generation
          · rw [hg] at hnotd ⊢
            rw [dontOf_setA_self]
            have hnotd1 : b ∉ dontOf (groupFor info x.channel x.generation)
                (addGroup (groupFor info x.channel x.generation) pg) := by
              rw [dontOf_addGroup]; exact hnotd
            split
            · dsimp only
              split
              · exact hnotd1
              · exact hnotd1
            · dsimp only
              intro hc
              rcases mem_hsInsert.mp hc with hc | hc
              · exact hbx hc
              · revert hc
                split
                · exact hnotd1
                · exact hnotd1
          · rw [dontOf_setA_ne _ _ hg, dontOf_addGroup]
            exact hnotd

end PerGroupLemmas

section Claims

/-- C6: if MarkInUse(id, true) is called n times starting with no
outstanding uses, and then RequestDelete(id) is called, the blob is not
placed into the active Delete queue (or small-blob delete set) by the
request or by the first n-1 MarkInUse(id, false) calls; the n-th call
promotes it there exactly once (a single occurrence) and removes it from
the delayed-delete set. -/
theorem c6_use_count_defers_deletion {m0 : TBlobManager} {id : TUnifiedBlobId} {n : Nat}
    (habs : lookupA id m0.blobsUseCount = none) (hpos : 0 < n)
    (hact : ¬ inActiveDelete m0 id) (hq : DQInv m0) :
    (∀ k, k < n → ∀ mk,
      applyUnuse id k (deleteBlob (applyUseTrue id n m0) id).1 = some mk →
      ¬ inActiveDelete mk id) ∧
    (∃ mf, applyUnuse id n (deleteBlob (applyUseTrue id n m0) id).1 = some mf ∧
      inActiveDelete mf id ∧ activeDeleteCount mf id = 1 ∧ ¬ inDelayedDelete mf id) := by
  obtain ⟨hq1, hq2, hq3, hq4⟩ := hq
  have hcount : lookupA id (applyUseTrue id n m0).blobsUseCount = some n :=
    applyUseTrue_from_none habs hpos
  obtain ⟨hf1, hf2, hf3, hf4⟩ := @applyUseTrue_fields id n m0
  have hne : lookupA id (applyUseTrue id n m0).blobsUseCount ≠ none := by
    simp [hcount]
  cases id with
  | small t g st ck sz =>
    set idv := TUnifiedBlobId.small t g st ck sz with hidv
    set mU := applyUseTrue idv n m0 with hmU
    have hdel1 := @deleteBlob_delayed_small mU idv rfl hne
    rw [hdel1]
    obtain ⟨hA, mf, hmf, hmem, hcnt, hndel⟩ :=
      @applyUnuse_drain_small idv rfl n
        { mU with smallBlobsToDelete := [],
                  smallBlobsToDeleteDelayed := hsInsert idv mU.smallBlobsToDeleteDelayed }
        hcount hpos (mem_hsInsert.mpr (Or.inl rfl)) (List.not_mem_nil idv)
        List.nodup_nil (nodup_hsInsert (hf4.symm ▸ hq4))
    refine ⟨?_, ⟨mf, hmf, ?_, ?_, ?_⟩⟩
    · intro k hk mk hmk
      simpa [inActiveDelete] using hA k hk mk hmk
    · simpa [inActiveDelete] using hmem
    · simpa [activeDeleteCount] using hcnt
    · simpa [inDelayedDelete] using hndel
  | ds dsg logo =>
    set idv := TUnifiedBlobId.ds dsg logo with hidv
    set mU := applyUseTrue idv n m0 with hmU
    have hdel1 := @deleteBlob_delayed_store mU idv rfl hne
    rw [hdel1]
    have hact2 : logo ∉ mU.blobsToDelete := by
      rw [hf1]
      simpa [inActiveDelete] using hact
    obtain ⟨hA, mf, hmf, hmem, hcnt, hndel⟩ :=
      @applyUnuse_drain_store idv rfl n
        { mU with smallBlobsToDelete := [],
                  blobsToDeleteDelayed := hsInsert logo mU.blobsToDeleteDelayed }
        hcount hpos (mem_hsInsert.mpr (Or.inl rfl)) hact2
        (hf1.symm ▸ hq1) (nodup_hsInsert (hf2.symm ▸ hq2))
    refine ⟨?_, ⟨mf, hmf, ?_, ?_, ?_⟩⟩
    · intro k hk mk hmk
      simpa [inActiveDelete] using hA k hk mk hmk
    · simpa [inActiveDelete] using hmem
    · simpa [activeDeleteCount] using hcnt
    · simpa [inDelayedDelete] using hndel

theorem c6_witness :
    ¬ inActiveDelete mC6d dsbW ∧ ¬ inActiveDelete mC6a dsbW ∧
    inActiveDelete mC6f dsbW ∧ activeDeleteCount mC6f dsbW = 1 ∧
    ¬ inDelayedDelete mC6f dsbW := by
  obtain ⟨hA, mf, hmf, h1, h2, h3⟩ := @c6_use_count_defers_deletion mFresh dsbW 2 rfl (by decide) (by decide) (by decide)
  have ef : mC6f = mf := by
    unfold mC6f
    rw [show applyUnuse dsbW 2 mC6d = some mf from hmf]
    rfl
  refine ⟨?_, ?_, ?_, ?_, ?_⟩
  · exact hA 0 (by decide) mC6d rfl
  · exact hA 1 (by decide) mC6a (by decide)
  · rw [ef]; exact h1
  · rw [ef]; exact h2
  · rw [ef]; exact h3

/-- C5: for every sequence of StartBatch (StartBlobBatch), AllocateBlob,
AcknowledgeWrite and CommitBatch (SaveBlobBatch) operations, the resulting
Keep queue contains exactly the store-blob identifiers of the committed
batches' blobs, each appearing exactly once. -/
theorem c5_keep_queue_exactly_committed {info : TTabletStorageInfo} {gen : Nat}
    {thr itv : Int} {w : World} (h : ReachableB info gen thr itv w) :
    (∀ a, a ∈ w.mgr.blobsToKeep ↔ a ∈ w.committed) ∧ w.mgr.blobsToKeep.Nodup := by
  obtain ⟨hm, hsrt⟩ := reachableB_keep_exact h
  exact ⟨hm, nodup_of_pairwise_ltLogo hsrt⟩

theorem c5_witness :
    ((⟨1, 5, 1, 2, 0, 10⟩ : TLogoBlobID) ∈ wB4.mgr.blobsToKeep ↔
      (⟨1, 5, 1, 2, 0, 10⟩ : TLogoBlobID) ∈ wB4.committed) ∧
    wB4.mgr.blobsToKeep.Nodup := by
  have h1 : ReachableB infoW 5 1000000 0 w1W :=
    ReachableB.step (Op.startBatch 2) ReachableB.init (by decide) (by decide)
  have h2 : ReachableB infoW 5 1000000 0 wB2 :=
    ReachableB.step (Op.allocateBlob 5 1 10) h1 (by decide) (by decide)
  have h3 : ReachableB infoW 5 1000000 0 wB3 :=
    ReachableB.step (Op.ackWrite 5 1 0) h2 (by decide) (by decide)
  have h4 : ReachableB infoW 5 1000000 0 wB4 :=
    ReachableB.step (Op.commitBatch 5 1) h3 (by decide) (by decide)
  obtain ⟨hm, hn⟩ := c5_keep_queue_exactly_committed h4
  exact ⟨hm _, hn⟩

/-- C1: The GC barrier (LastCollectedGenStep) is non-decreasing across every
manager operation applied to every reachable state, and after the
operation it is strictly below the GenStep of every unfinished entry of
the allocation queue (in fact of every entry). -/
theorem c1_barrier_monotone_below_unfinished {info : TTabletStorageInfo} {gen : Nat}
    {thr itv : Int} {w w2 : World} (op : Op) (hr : Reachable info gen thr itv w)
    (h : stepW w op = some w2) :
    gsLe w.mgr.lastCollectedGenStep w2.mgr.lastCollectedGenStep ∧
    ∀ a ∈ w2.mgr.allocatedGenSteps, a.finished = false →
      gsLt w2.mgr.lastCollectedGenStep a.genStep := by
  have hi := reachable_gcInv hr
  obtain ⟨hi2, hmono⟩ := stepW_inv h hi
  obtain ⟨_, _, hnc, hln, _, _, _⟩ := hi2
  exact ⟨hmono, fun a ha _ => gsLt_of_gsLe_of_gsLt hln (hnc a ha)⟩

theorem c1_witness :
    gsLe w0W.mgr.lastCollectedGenStep w1W.mgr.lastCollectedGenStep ∧
    gsLt w1W.mgr.lastCollectedGenStep ((5, 1) : TGenStep) := by
  obtain ⟨h1, h2⟩ := c1_barrier_monotone_below_unfinished (Op.startBatch 2) Reachable.init
    (show stepW w0W (Op.startBatch 2) = some w1W by decide)
  exact ⟨h1, h2 ⟨(5, 1), false⟩ (by decide) rfl⟩

/-- C3: While a GC round's per-group requests are still outstanding (the
in-flight map is non-empty), an attempt to start another round via
PreparePerGroupGCRequests returns no requests and leaves the manager
unchanged. -/
theorem c3_single_round_in_flight (m : TBlobManager) (now : Nat)
    (h : m.perGroupGCListsInFlight ≠ []) :
    preparePerGroupGCRequests m now = some ([], m) := by
  unfold preparePerGroupGCRequests tryMoveGCBarrier
  rw [if_pos h]

theorem c3_witness :
    mC3.perGroupGCListsInFlight ≠ [] ∧
    preparePerGroupGCRequests mC3 0 = some ([], mC3) :=
  ⟨by decide, c3_single_round_in_flight mC3 0 (by decide)⟩

/-- C2 counterexample: from a fresh generation-5 manager, start two batches
and commit the first; the allocation queue is then a finished (5, 1)
followed by an unfinished (5, 2).  The proposed round's target is (5, 1),
while the GenStep of the earliest unfinished allocation remaining in the
queue is (5, 2): the claimed equality fails. -/
theorem c2_counterexample :
    stepN w0W [Op.startBatch 2, Op.startBatch 2, Op.commitBatch 5 1] = some wC2 ∧
    (preparePerGroupGCRequests wC2.mgr 1).map
      (fun p => (p.1.length, p.2.collectGenStepInFlight, p.2.allocatedGenSteps)) =
      some (1, (5, 1), [⟨(5, 2), false⟩]) ∧
    ((5, 1) : TGenStep) ≠ ((5, 2) : TGenStep) := by
  refine ⟨by decide, by decide, by decide⟩

/-- C2 (amended): when a GC round is proposed, the target GenStep frozen for
the round is strictly less than the GenStep of every allocation remaining
in the ordered allocation queue — in particular strictly less than the
earliest unfinished allocation's GenStep, not equal to it — and equals the
shard's current GenStep when the queue has been fully drained; every
allocation popped by the proposal was finished and its GenStep is at or
below the target. -/
theorem c2_amended_target_below_unfinished {m : TBlobManager} {now : Nat}
    {mA m1 : TBlobManager} {reqs : List (Nat × TGCRequest)}
    (hi : GCInv m) (htm : tryMoveGCBarrier m now = some (true, mA))
    (hp : preparePerGroupGCRequests m now = some (reqs, m1)) :
    m1.collectGenStepInFlight = mA.newCollectGenStep ∧
    (∀ a ∈ mA.allocatedGenSteps, gsLt m1.collectGenStepInFlight a.genStep) ∧
    (mA.allocatedGenSteps = [] → m1.collectGenStepInFlight = (m.currentGen, m.currentStep)) ∧
    (∀ a ∈ m.allocatedGenSteps, a ∉ mA.allocatedGenSteps →
      a.finished = true ∧ gsLe a.genStep m1.collectGenStepInFlight) := by
  obtain ⟨r2, mA2, htm2, hcase⟩ := prepare_shape hp
  rw [htm] at htm2
  simp only [Option.some.injEq, Prod.mk.injEq] at htm2
  obtain ⟨hr2, hma2⟩ := htm2
  subst hr2
  subst hma2
  rcases hcase with ⟨hff, _, _⟩ | ⟨_, _, _, hcif, _, _, _, _⟩
  · cases hff
  obtain ⟨hbelow, hempty, hpopped, _⟩ := tryMoveGCBarrier_true_spec hi htm
  rw [hcif]
  exact ⟨rfl, hbelow, hempty, hpopped⟩

theorem c2_amended_witness :
    mC2P.collectGenStepInFlight = mC2A.newCollectGenStep ∧
    gsLt mC2P.collectGenStepInFlight ((5, 2) : TGenStep) ∧
    (⟨(5, 1), true⟩ : TAllocatedGenStep).finished = true ∧
    gsLe ((5, 1) : TGenStep) mC2P.collectGenStepInFlight := by
  obtain ⟨h1, h2, h3, h4⟩ := c2_amended_target_below_unfinished (by decide)
    (show tryMoveGCBarrier wC2.mgr 1 = some (true, mC2A) by decide)
    (show preparePerGroupGCRequests wC2.mgr 1 = some (reqsC2, mC2P) by decide)
  refine ⟨h1, ?_, ?_⟩
  · exact h2 ⟨(5, 2), false⟩ (by decide)
  · obtain ⟨hf, hb⟩ := h4 ⟨(5, 1), true⟩ (by decide) (by decide)
    exact ⟨hf, hb⟩

/-- C7 counterexample: requesting deletion of a small blob whose use count
is zero issues only the physical small-blob erase; no delete-intent record
(AddBlobToDelete) is persisted for it. -/
theorem c7_counterexample :
    sbW.isSmallBlob = true ∧ lookupA sbW mFresh.blobsUseCount = none ∧
    (deleteBlob mFresh sbW).2 = [DbOp.eraseSmallBlob sbW] ∧
    DbOp.addBlobToDelete sbW ∉ (deleteBlob mFresh sbW).2 := by
  refine ⟨rfl, rfl, by decide, by decide⟩

/-- C7 (amended): every DeleteBlob call on a store blob persists a
delete-intent record immediately, regardless of use count; a small blob
gets the intent record only when its use count is non-zero (with a zero
count its payload is erased from small-blob storage in the same
transaction instead). -/
theorem c7_amended_delete_intent_persisted (m : TBlobManager) (id : TUnifiedBlobId)
    (h : id.isSmallBlob = false ∨ lookupA id m.blobsUseCount ≠ none) :
    DbOp.addBlobToDelete id ∈ (deleteBlob m id).2 := by
  unfold deleteBlob
  dsimp only
  have hpd : (performDelayedDeletes m).1.blobsUseCount = m.blobsUseCount := rfl
  split
  · split
    · rcases h with h | h
      · simp_all
      · simp_all [hpd]
    · simp
  · split <;> simp

theorem c7_witness :
    DbOp.addBlobToDelete dsbW ∈ (deleteBlob mFresh dsbW).2 :=
  c7_amended_delete_intent_persisted mFresh dsbW (Or.inl (by decide))

/-- C8 counterexample: dropping a SELF_CACHED blob records it in the
dropped-overlay table still as SELF_CACHED, not as EXTERN: the remap
claimed by the spec sits in a disabled conditional-compilation block of
DropOneToOne. -/
theorem c8_counterexample :
    lookupA dsbW mC8.evictedBlobs = some (EEvictState.SELF_CACHED, ⟨3⟩) ∧
    lookupA dsbW (dropOneToOne mC8 dsbW).2.1.droppedEvictedBlobs =
      some (EEvictState.SELF_CACHED, ⟨3⟩) ∧
    (EEvictState.SELF_CACHED ≠ EEvictState.EXTERNAL) := by
  refine ⟨rfl, by decide, by decide⟩

/-- C8 (amended): for every blob in the active eviction table, DropOneToOne
removes it from that table and re-records it in the dropped-overlay table
with its state unchanged (including SELF_CACHED); the SELF_CACHED-to-EXTERN
remap is not performed at drop time — it happens later, when UpdateOneToOne
touches the dropped record. -/
theorem c8_amended_drop_keeps_state {m : TBlobManager} {id : TUnifiedBlobId}
    {st : EEvictState} {meta : TEvictMetadata}
    (h : lookupA id m.evictedBlobs = some (st, meta))
    (hn : (m.evictedBlobs.map Prod.fst).Nodup)
    (hd : lookupA id m.droppedEvictedBlobs = none) :
    (dropOneToOne m id).1 = true ∧
    lookupA id (dropOneToOne m id).2.1.evictedBlobs = none ∧
    lookupA id (dropOneToOne m id).2.1.droppedEvictedBlobs = some (st, meta) := by
  unfold dropOneToOne extractEvicted
  simp only [Bool.false_eq_true, if_false]
  rw [h]
  dsimp only
  refine ⟨rfl, lookupA_eraseA_self hn, ?_⟩
  rw [emplaceA_of_none hd]
  exact lookupA_cons_self id (st, meta) m.droppedEvictedBlobs

theorem c8_witness :
    (dropOneToOne mC8 dsbW).1 = true ∧
    lookupA dsbW (dropOneToOne mC8 dsbW).2.1.evictedBlobs = none ∧
    lookupA dsbW (dropOneToOne mC8 dsbW).2.1.droppedEvictedBlobs =
      some (EEvictState.SELF_CACHED, ⟨3⟩) :=
  c8_amended_drop_keeps_state (by decide) (by decide) (by decide)

/-- C10: for a blob present in neither the active eviction table nor the
dropped-overlay table, UpdateOneToOne returns false, leaves the manager
(both tables included) unchanged, and issues no persistence calls. -/
theorem c10_update_absent_noop (m : TBlobManager) (id : TUnifiedBlobId) (st : EEvictState)
    (h1 : lookupA id m.evictedBlobs = none)
    (h2 : lookupA id m.droppedEvictedBlobs = none) :
    updateOneToOne m id st = some (false, false, m, []) := by
  unfold updateOneToOne extractEvicted
  simp only [Bool.false_eq_true, if_false]
  rw [h1]
  dsimp only
  simp [h2]

theorem c10_witness :
    updateOneToOne mFresh dsbW EEvictState.SELF_CACHED = some (false, false, mFresh, []) :=
  c10_update_absent_noop mFresh dsbW EEvictState.SELF_CACHED rfl rfl

/-- C9: for a blob not previously evicted (present in neither eviction
table), ExportOneToOne, then DropOneToOne, then UpdateOneToOne with
requested state SELF_CACHED leaves the blob recorded in the dropped
overlay table with state EXTERN; the update reports success with the
dropped flag set. -/
theorem c9_export_drop_update_resolves_to_external {m : TBlobManager}
    {id : TUnifiedBlobId} (meta : TEvictMetadata)
    (h1 : lookupA id m.evictedBlobs = none)
    (h2 : lookupA id m.droppedEvictedBlobs = none) :
    ∃ r, updateOneToOne (dropOneToOne (exportOneToOne m id meta).2.1 id).2.1 id
        EEvictState.SELF_CACHED = some r ∧
      r.1 = true ∧ r.2.1 = true ∧
      lookupA id r.2.2.1.droppedEvictedBlobs = some (EEvictState.EXTERNAL, meta) := by
  refine ⟨(true, true,
    { m with droppedEvictedBlobs :=
        (id, EEvictState.EXTERNAL, meta) :: m.droppedEvictedBlobs },
    [DbOp.updateEvictBlob id EEvictState.EXTERNAL]), ?_, rfl, rfl,
    lookupA_cons_self id (EEvictState.EXTERNAL, meta) m.droppedEvictedBlobs⟩
  simp [exportOneToOne, dropOneToOne, updateOneToOne, extractEvicted, updateValidate,
    emplaceA, lookupA, eraseA, h1, h2]

theorem c9_witness :
    updateOneToOne (dropOneToOne (exportOneToOne mFresh dsbW ⟨3⟩).2.1 dsbW).2.1 dsbW
      EEvictState.SELF_CACHED = some rC9 ∧
    rC9.1 = true ∧ rC9.2.1 = true ∧
    lookupA dsbW rC9.2.2.1.droppedEvictedBlobs =
      some (EEvictState.EXTERNAL, (⟨3⟩ : TEvictMetadata)) := by
  obtain ⟨r, hr, ha, hb, hc⟩ := @c9_export_drop_update_resolves_to_external mFresh dsbW ⟨3⟩ rfl rfl
  have hre : rC9 = r := by
    unfold rC9
    rw [hr]
    rfl
  rw [hre]
  exact ⟨hr, ha, hb, hc⟩

/-- C4: when PreparePerGroupGCRequests builds a round, a blob present in
both the ordered Keep queue and the ordered Delete queue with GenStep at or
below the round's target does not appear in the Keep list of the emitted
request of its group; and if additionally the blob's generation equals the
shard's current generation, it does not appear in the DontKeep list of
that request either. -/
theorem c4_doomed_blob_in_no_request {m : TBlobManager} {now : Nat}
    {reqs : List (Nat × TGCRequest)} {m1 : TBlobManager} {b : TLogoBlobID}
    {req : TGCRequest}
    (hsk : m.blobsToKeep.Pairwise ltLogo) (hsd : m.blobsToDelete.Pairwise ltLogo)
    (htk : ∀ x ∈ m.blobsToKeep, x.tabletID = b.tabletID)
    (htd : ∀ x ∈ m.blobsToDelete, x.tabletID = b.tabletID)
    (hbk : b ∈ m.blobsToKeep) (hbd : b ∈ m.blobsToDelete)
    (hres : preparePerGroupGCRequests m now = some (reqs, m1))
    (hble : gsLe b.genStep m1.collectGenStepInFlight)
    (hreq : (groupFor m.tabletInfo b.channel b.generation, req) ∈ reqs) :
    b ∉ req.keep ∧ (m.currentGen = b.generation → b ∉ req.dontKeep) := by
  unfold preparePerGroupGCRequests at hres
  rcases htm : tryMoveGCBarrier m now with _ | ⟨r, mA⟩
  · rw [htm] at hres; cases hres
  · rw [htm] at hres
    cases r with
    | false =>
      dsimp only at hres
      cases hres
      cases hreq
    | true =>
      dsimp only at hres
      cases hres
      have hfr := tryMoveGCBarrier_frame htm
      have hti : mA.tabletInfo = m.tabletInfo := congrArg (fun t => t.1) hfr
      have hgen : mA.currentGen = m.currentGen := congrArg (fun t => t.2.1) hfr
      have hkeepq : mA.blobsToKeep = m.blobsToKeep :=
        congrArg (fun t => t.2.2.2.2.2.2.2.2.1) hfr
      have hdelq : mA.blobsToDelete = m.blobsToDelete :=
        congrArg (fun t => t.2.2.2.2.2.2.2.2.2.1) hfr
      rw [← hkeepq] at hsk htk hbk
      rw [← hdelq] at hsd htd hbd
      rw [← hti] at hreq
      rw [← hgen]
      have hble2 : gsLe b.genStep mA.newCollectGenStep := hble
      have hpg0 := keysNodup_initGroups mA.tabletInfo mA.lastCollectedGenStep.1
        mA.newCollectGenStep.1
      obtain ⟨hke, hde⟩ := keepOf_initGroups
        (groupFor mA.tabletInfo b.channel b.generation) mA.tabletInfo
        mA.lastCollectedGenStep.1 mA.newCollectGenStep.1
      have hbkp := peelKeep_mem mA.tabletInfo mA.newCollectGenStep hble2
        mA.blobsToKeep
        (initGroups mA.tabletInfo mA.lastCollectedGenStep.1 mA.newCollectGenStep.1)
        hsk htk hbk
      have hndp := peelKeep_keepOf_nodup
        (g := groupFor mA.tabletInfo b.channel b.generation)
        mA.tabletInfo mA.newCollectGenStep mA.blobsToKeep
        (initGroups mA.tabletInfo mA.lastCollectedGenStep.1 mA.newCollectGenStep.1)
        (by rw [hke]; exact List.nodup_nil)
      have hdnp : b ∉ dontOf (groupFor mA.tabletInfo b.channel b.generation)
          (peelKeep mA.tabletInfo mA.newCollectGenStep mA.blobsToKeep
            (initGroups mA.tabletInfo mA.lastCollectedGenStep.1
              mA.newCollectGenStep.1)).2 := by
        rw [peelKeep_dontOf, hde]
        exact List.not_mem_nil b
      obtain ⟨hnk, hnd2⟩ := peelDelete_clears mA.tabletInfo mA.currentGen
        mA.newCollectGenStep hble2 mA.blobsToDelete _ hsd htd hbd hbkp hndp hdnp
      have hknodup := keysNodup_peelDelete mA.tabletInfo mA.currentGen
        mA.newCollectGenStep mA.blobsToDelete _
        (keysNodup_peelKeep mA.tabletInfo mA.newCollectGenStep mA.blobsToKeep _ hpg0)
      obtain ⟨ls, hmem, hkq, hdq⟩ := buildRequests_mem _ _ _ _ _ _ hreq
      have hlk := lookupA_of_mem_keysNodup _ hknodup hmem
      refine ⟨?_, ?_⟩
      · rw [hkq]
        have hthis := hnk
        unfold keepOf at hthis
        rw [hlk] at hthis
        exact hthis
      · intro hcg
        rw [hdq]
        have hthis := hnd2 hcg
        unfold dontOf at hthis
        rw [hlk] at hthis
        exact hthis

theorem c4_witness :
    bC4 ∉ reqC4.keep ∧ (mC4.currentGen = bC4.generation → bC4 ∉ reqC4.dontKeep) := by
  exact c4_doomed_blob_in_no_request (m := mC4) (b := bC4)
    (by decide) (by decide) (by decide) (by decide) (by decide) (by decide)
    (show preparePerGroupGCRequests mC4 1 = some (prepC4.1, prepC4.2) from rfl)
    (by decide) (by decide)

end Claims

end BlobManager
